import Mathlib

/-!
go-simple-rbac: matchers, permissions, glob matching and policy templates

A shallow embedding of the Go package `go_simple_rbac` (files `matcher.go`,
`permission.go`, `string.go`, `glob.go`, `regex.go`, `policy.go`) together with theorems
about it.

Conventions of the embedding:

* a Go `string` is a finite sequence of bytes, `GoString := List Byte`;
* a Go `error` result is `Option Error`: `none` is `nil`, `some e` a non-nil error;
* a Go result pair `(bool, error)` is `Bool × Option Error`;
* a Go function value (`Matcher`, `Permission`, `PermissionConstructor`) is a Lean
  function, so it is never nil, and "is not evaluated" is expressed as "the result does
  not depend on it";
* a Go run-time panic (slice bounds out of range) is the result `none` of a
  function returning `Option`;
* a Go map is a function from keys to optional values, and a method with a pointer
  receiver returns the updated value.
-/

namespace GoSimpleRbac

/-! ## Data model -/

/-- One byte of a Go string. -/
abbrev Byte := Fin 256

/-- Go strings are byte sequences. -/
abbrev GoString := List Byte

/-- The bytes of an ASCII literal, used to write down concrete strings. -/
def ascii (s : String) : GoString := s.toList.map (fun c => Fin.ofNat c.toNat)

/-- A non-nil Go `error` value, identified by its message. -/
structure Error where
  msg : String
deriving DecidableEq, Repr

/-- The Go result pair `(bool, error)`. -/
abbrev Result := Bool × Option Error

/-- `type Matcher func(target string) (bool, error)` (matcher.go). -/
abbrev Matcher := GoString → Result

/-- `type Permission func(action string, target string) (bool, error)` (permission.go). -/
abbrev Permission := GoString → GoString → Result

/-- `type Permissions []Permission` (permission.go). -/
abbrev Permissions := List Permission

/-! ## permission.go -/

/-- `func (p Permissions) Can(action, target string) (bool, error)`: the `range` loop
over `p`, one permission per step. -/
def Permissions.Can : Permissions → GoString → GoString → Result
  | [], _, _ => (false, none)
  | permission :: rest, action, target =>
    match permission action target with
    | (_, some err) => (false, some err)
    | (can, none) => if can then (true, none) else Permissions.Can rest action target

/-- `func NewPermission(actionMatcher, targetMatcher Matcher) Permission`. -/
def NewPermission (actionMatcher targetMatcher : Matcher) : Permission :=
  fun action target =>
    match actionMatcher action with
    | (_, some err) => (false, some err)
    | (actionMatch, none) => if !actionMatch then (false, none) else targetMatcher target

/-- `func AllowAll(action, target string) (bool, error)`. -/
def AllowAll : Permission := fun _ _ => (true, none)

/-! ## matcher.go -/

/-- `func MatchAny(matchers ...Matcher) Matcher`: the `range` loop over `matchers`. -/
def MatchAny : List Matcher → Matcher
  | [], _ => (false, none)
  | matcher :: rest, target =>
    match matcher target with
    | (_, some err) => (false, some err)
    | (m, none) => if m then (true, none) else MatchAny rest target

/-- `func MatchAll(matchers ...Matcher) Matcher`: the `range` loop over `matchers`. -/
def MatchAll : List Matcher → Matcher
  | [], _ => (true, none)
  | matcher :: rest, target =>
    match matcher target with
    | (_, some err) => (false, some err)
    | (m, none) => if !m then (false, none) else MatchAll rest target

/-- `func Anything(target string) (bool, error)`. -/
def Anything : Matcher := fun _ => (true, none)

/-! ## string.go -/

/-- `func StringMatch(s string) Matcher`. -/
def StringMatch (s : GoString) : Matcher := fun target => (decide (target = s), none)

/-- `func NewStringPermission(action, target string) Permission`. -/
def NewStringPermission (action target : GoString) : Permission :=
  NewPermission (StringMatch action) (StringMatch target)

/-! ## Go standard library functions used by glob.go

`strings.Split`, `strings.Index`, `strings.HasPrefix`, `strings.HasSuffix` and the
slice expression `s[k:]`, following their documented behaviour. -/

namespace strings

/-- `strings.HasPrefix(s, prefix)`. -/
def HasPrefix (s pre : GoString) : Bool := pre.isPrefixOf s

/-- `strings.HasSuffix(s, suffix)`. -/
def HasSuffix (s suf : GoString) : Bool := suf.isSuffixOf s

/-- `strings.Index(s, substr)`: the index of the first instance of `substr` in `s`,
or `-1` if `substr` is not present in `s`. -/
def Index (s substr : GoString) : Int :=
  if substr.isPrefixOf s then 0
  else
    match s with
    | [] => -1
    | _ :: t =>
      let r := Index t substr
      if r < 0 then -1 else r + 1

/-- `strings.Split(s, sep)` for a one-byte separator: the substrings between the
occurrences of `sep`, one more than there are occurrences. -/
def Split : GoString → Byte → List GoString
  | [], _ => [[]]
  | c :: cs, sep =>
    if c = sep then [] :: Split cs sep
    else
      match Split cs sep with
      | [] => [[c]]
      | p :: ps => (c :: p) :: ps

end strings

/-- The slice expression `s[k:]`; `none` is the run-time panic for `k` out of range. -/
def sliceFrom (s : GoString) (k : Int) : Option GoString :=
  if 0 ≤ k ∧ k ≤ (s.length : Int) then some (s.drop k.toNat) else none

/-! ## glob.go -/

/-- `const GLOB = "*"`: a one-byte string, given by its byte; the string is `[GLOB]`. -/
def GLOB : Byte := 42

/-- How the `for` loop of `Glob` ends. -/
inductive LoopOutcome where
  /-- The loop body executed `return false`. -/
  | returned (b : Bool)
  /-- The loop ran to its end, leaving this value in `subj`. -/
  | finished (subj : GoString)
  /-- The slice expression `subj[idx+len(parts[i]):]` was out of range. -/
  | panicked
deriving DecidableEq, Repr

/-- The loop `for i := 0; i < end; i++` of `Glob`: `Glob.loop leadingGlob i ps subj` runs
it from index `i` on, where `ps` is `parts[i:end]` and `subj` the current subject. -/
def Glob.loop (leadingGlob : Bool) : Nat → List GoString → GoString → LoopOutcome
  | _, [], subj => .finished subj
  | i, part :: rest, subj =>
    let idx := strings.Index subj part
    let stop : Bool := if i = 0 then (!leadingGlob && decide (idx ≠ 0)) else decide (idx < 0)
    if stop then .returned false
    else
      match sliceFrom subj (idx + (part.length : Int)) with
      | none => .panicked
      | some subj' => Glob.loop leadingGlob (i + 1) rest subj'

/-- `func Glob(pattern, subj string) bool`; `none` is a run-time panic. -/
def Glob (pattern subj : GoString) : Option Bool :=
  if pattern = [] then some (decide (subj = pattern))
  else if pattern = [GLOB] then some true
  else
    let parts := strings.Split pattern GLOB
    if parts.length = 1 then some (decide (subj = pattern))
    else
      let leadingGlob := strings.HasPrefix pattern [GLOB]
      let trailingGlob := strings.HasSuffix pattern [GLOB]
      let end_ := parts.length - 1
      match Glob.loop leadingGlob 0 (parts.take end_) subj with
      | .returned b => some b
      | .panicked => none
      | .finished subj' =>
        match parts[end_]? with
        | none => none
        | some last => some (trailingGlob || strings.HasSuffix subj' last)

/-- The safety condition of the loop of `Glob`, checked along its run: each time the
trim `subj = subj[idx+len(parts[i]):]` is reached, `0 ≤ idx` and
`idx + len(parts[i]) ≤ len(subj)`. The arguments are those of `Glob.loop`. -/
def Glob.trimsInRange (leadingGlob : Bool) : Nat → List GoString → GoString → Bool
  | _, [], _ => true
  | i, part :: rest, subj =>
    let idx := strings.Index subj part
    let stop : Bool := if i = 0 then (!leadingGlob && decide (idx ≠ 0)) else decide (idx < 0)
    if stop then true
    else
      decide (0 ≤ idx ∧ idx + (part.length : Int) ≤ (subj.length : Int)) &&
        Glob.trimsInRange leadingGlob (i + 1) rest (subj.drop (idx + (part.length : Int)).toNat)

/-- `func GlobMatch(pattern string) Matcher`. `Glob` returns a boolean on every input
(`Glob_total`), so the branch for a panic is never taken. -/
def GlobMatch (pattern : GoString) : Matcher :=
  fun target =>
    match Glob pattern target with
    | some b => (b, none)
    | none => (false, none)

/-- `func NewGlobPermission(actionPattern, targetPattern string) Permission`. -/
def NewGlobPermission (actionPattern targetPattern : GoString) : Permission :=
  NewPermission (GlobMatch actionPattern) (GlobMatch targetPattern)

/-! ## regex.go

The regular-expression engine `regexp.MatchString(pattern, s)` of the Go standard
library is a parameter `matchString` of everything that depends on it. -/

/-- `func RegexMatch(pattern string) Matcher`. -/
def RegexMatch (matchString : GoString → GoString → Result) (pattern : GoString) : Matcher :=
  fun target => matchString pattern target

/-- `func NewRegexPermission(actionPattern, targetPattern string) Permission`. -/
def NewRegexPermission (matchString : GoString → GoString → Result)
    (actionPattern targetPattern : GoString) : Permission :=
  NewPermission (RegexMatch matchString actionPattern) (RegexMatch matchString targetPattern)

/-! ## policy.go

A Go map `map[string]PermissionConstructor` is a function from keys to optional values;
the methods with a pointer receiver return the updated template; the optional
`*strings.Replacer` is an optional function on strings (`none` is `nil`). -/

/-- `type PermissionConstructor func(action, target string) Permission`. -/
abbrev PermissionConstructor := GoString → GoString → Permission

/-- The type `map[string]PermissionConstructor` of the constructor registry. -/
abbrev Registry := GoString → Option PermissionConstructor

/-- `func DefaultPermissionConstructors() map[string]PermissionConstructor`. -/
def DefaultPermissionConstructors (matchString : GoString → GoString → Result) : Registry :=
  fun name =>
    if name = ascii "glob" then some NewGlobPermission
    else if name = ascii "regex" then some (NewRegexPermission matchString)
    else if name = ascii "string" then some NewStringPermission
    else none

/-- `type PermissionTemplate struct`. -/
structure PermissionTemplate where
  Constructor : GoString
  Action : GoString
  Target : GoString

/-- `type PolicyTemplate struct`. -/
structure PolicyTemplate where
  RoleID : GoString
  PermissionTemplates : List PermissionTemplate
  constructors : Registry

/-- Modelled from the spec: the struct `Role`, whose declaration is not among the source
files; a role identifier and an ordered sequence of permissions, as `Role` builds it. -/
structure Role where
  RoleID : GoString
  Permissions : GoSimpleRbac.Permissions

/-- `func NewPolicyTemplate(roleID string) *PolicyTemplate`. -/
def NewPolicyTemplate (matchString : GoString → GoString → Result) (roleID : GoString) :
    PolicyTemplate :=
  { RoleID := roleID
    PermissionTemplates := []
    constructors := DefaultPermissionConstructors matchString }

/-- `func (p *PolicyTemplate) AddPermission(constructor, action, target string)`. -/
def PolicyTemplate.AddPermission (p : PolicyTemplate) (constructor action target : GoString) :
    PolicyTemplate :=
  { p with PermissionTemplates := p.PermissionTemplates ++ [⟨constructor, action, target⟩] }

/-- `func (p *PolicyTemplate) SetConstructor(name string, constructor PermissionConstructor)`. -/
def PolicyTemplate.SetConstructor (p : PolicyTemplate) (name : GoString)
    (constructor : PermissionConstructor) : PolicyTemplate :=
  { p with constructors := fun key => if key = name then some constructor else p.constructors key }

/-- `func (p *PolicyTemplate) DeleteConstructor(name string)`. -/
def PolicyTemplate.DeleteConstructor (p : PolicyTemplate) (name : GoString) : PolicyTemplate :=
  { p with constructors := fun key => if key = name then none else p.constructors key }

/-- The body of the `range` loop of `Role` for one permission template: the value
assigned to `role.Permissions[i]`. -/
def PolicyTemplate.construct (p : PolicyTemplate) (replacer : Option (GoString → GoString))
    (permissionTemplate : PermissionTemplate) : Permission :=
  let constructor : PermissionConstructor :=
    match p.constructors permissionTemplate.Constructor with
    | some c => c
    | none => NewGlobPermission
  match replacer with
  | none => constructor permissionTemplate.Action permissionTemplate.Target
  | some r => constructor (r permissionTemplate.Action) (r permissionTemplate.Target)

/-- The zero value of the slots of `make(Permissions, n)`, a nil function. It is never
called: the loop of `Role` assigns every slot (`PolicyTemplate.Role_Permissions`). -/
def nilPermission : Permission := fun _ _ => (false, none)

/-- The loop `for i, permissionTemplate := range p.PermissionTemplates` of `Role`, from
index `i` on; `perms` is `role.Permissions`. -/
def PolicyTemplate.roleLoop (p : PolicyTemplate) (replacer : Option (GoString → GoString)) :
    Nat → List PermissionTemplate → Permissions → Permissions
  | _, [], perms => perms
  | i, permissionTemplate :: rest, perms =>
    PolicyTemplate.roleLoop p replacer (i + 1) rest
      (perms.set i (p.construct replacer permissionTemplate))

/-- `func (p *PolicyTemplate) Role(replacer *strings.Replacer) *Role`. -/
def PolicyTemplate.Role (p : PolicyTemplate) (replacer : Option (GoString → GoString)) :
    GoSimpleRbac.Role :=
  { RoleID := p.RoleID
    Permissions := p.roleLoop replacer 0 p.PermissionTemplates
      (List.replicate p.PermissionTemplates.length nilPermission) }

/-! ## Specification vocabulary for glob matching -/

/-- The strings of `ps` occur in `s` in this order, one after the other without
overlap. -/
def OccursInOrder : List GoString → GoString → Prop
  | [], _ => True
  | p :: rest, s => ∃ u v, s = u ++ p ++ v ∧ OccursInOrder rest v

/-- The string `s_0 ++ x_1 ++ s_1 ++ ... ++ x_n ++ s_n` for the segments
`s_0, ..., s_n` and the gap fillers `x_1, ..., x_n`. -/
def weave : List GoString → List GoString → GoString
  | [], _ => []
  | seg :: segs, xs => seg ++ (List.zipWith (fun x sg => x ++ sg) xs segs).flatten

/-- Standard wildcard semantics: `s` matches the segments `s_0, ..., s_n` if there are
strings `x_1, ..., x_n` with `s = s_0 ++ x_1 ++ s_1 ++ ... ++ x_n ++ s_n`. -/
def WildMatch (segs : List GoString) (s : GoString) : Prop :=
  ∃ xs : List GoString, xs.length + 1 = segs.length ∧ s = weave segs xs

/-- Standard wildcard semantics, segment by segment: the last segment is the whole
remaining string, any other one is a prefix followed by an arbitrary gap. -/
def WildMatch.step : List GoString → GoString → Prop
  | [], _ => False
  | [last], s => s = last
  | seg :: next :: rest, s => ∃ x t, s = seg ++ x ++ t ∧ WildMatch.step (next :: rest) t

/-! ## Sample values used in the concrete checks -/

/-- A permission that always fails with the given message. -/
def failWith (m : String) : Permission := fun _ _ => (false, some ⟨m⟩)

/-- A permission that denies without error. -/
def DenyAll : Permission := fun _ _ => (false, none)

/-- A matcher that always fails with the given message. -/
def failMatch (m : String) : Matcher := fun _ => (false, some ⟨m⟩)

/-- A matcher that reports a match together with an error. -/
def trueWithError (m : String) : Matcher := fun _ => (true, some ⟨m⟩)

/-- A matcher that never matches. -/
def Nothing : Matcher := fun _ => (false, none)

/-- A regular-expression engine that never matches and never fails. -/
def noRegexp : GoString → GoString → Result := fun _ _ => (false, none)

/-- A substitution that replaces the token `$user` by `alice`. -/
def substUser : GoString → GoString :=
  fun s => if s = ascii "$user" then ascii "alice" else s

/-- A template with a glob rule and a string rule holding the token `$user`. -/
def samplePolicy : PolicyTemplate :=
  ((NewPolicyTemplate noRegexp (ascii "editor")).AddPermission
    (ascii "glob") (ascii "read*") (ascii "/docs/*")).AddPermission
    (ascii "string") (ascii "write") (ascii "$user")

/-- A template whose only rule names a constructor that is not registered. -/
def bogusPolicy : PolicyTemplate :=
  (NewPolicyTemplate noRegexp (ascii "any")).AddPermission (ascii "bogus") (ascii "*") (ascii "*")

/-- A template whose only rule is a string rule holding the token `$user`. -/
def userPolicy : PolicyTemplate :=
  (NewPolicyTemplate noRegexp (ascii "owner")).AddPermission
    (ascii "string") (ascii "edit") (ascii "$user")

/-- A constructor that ignores its patterns and allows everything. -/
def allowAllConstructor : PermissionConstructor := fun _ _ => AllowAll

/-! ## Lemmas on `Permissions.Can` -/

theorem Permissions.Can_nil (action target : GoString) :
    Permissions.Can [] action target = (false, none) := rfl

theorem Permissions.Can_cons_err (p : Permission) (rest : Permissions) (action target : GoString)
    (e : Error) (h : (p action target).2 = some e) :
    Permissions.Can (p :: rest) action target = (false, some e) := by
  rcases hp : p action target with ⟨b, err⟩
  rw [hp] at h
  cases h
  simp [Permissions.Can, hp]

theorem Permissions.Can_cons_true (p : Permission) (rest : Permissions) (action target : GoString)
    (h : p action target = (true, none)) :
    Permissions.Can (p :: rest) action target = (true, none) := by
  simp [Permissions.Can, h]

theorem Permissions.Can_cons_false (p : Permission) (rest : Permissions) (action target : GoString)
    (h : p action target = (false, none)) :
    Permissions.Can (p :: rest) action target = Permissions.Can rest action target := by
  simp [Permissions.Can, h]

/-- Permissions that deny without error are skipped by the scan. -/
theorem Permissions.Can_append_of_all_false (pre post : Permissions) (action target : GoString)
    (hpre : ∀ p ∈ pre, p action target = (false, none)) :
    Permissions.Can (pre ++ post) action target = Permissions.Can post action target := by
  induction pre with
  | nil => rfl
  | cons p pre ih =>
    have hp : p action target = (false, none) := hpre p (List.mem_cons_self _ _)
    have hrest : ∀ q ∈ pre, q action target = (false, none) :=
      fun q hq => hpre q (List.mem_cons_of_mem _ hq)
    rw [List.cons_append, Permissions.Can_cons_false _ _ _ _ hp, ih hrest]

/-- A result pair is `(false, nil)`, `(true, nil)` or carries a non-nil error. -/
theorem Result.cases (r : Result) :
    r = (false, none) ∨ r = (true, none) ∨ ∃ e, r.2 = some e := by
  rcases r with ⟨b, _ | e⟩
  · cases b <;> simp
  · exact Or.inr (Or.inr ⟨e, rfl⟩)

/-- Every permission sequence either denies throughout or splits at its first
permission that does not return `(false, nil)`. -/
theorem Permissions.exists_first_decisive (ps : Permissions) (action target : GoString) :
    (∀ p ∈ ps, p action target = (false, none)) ∨
    ∃ pre d post, ps = pre ++ d :: post ∧
      (∀ p ∈ pre, p action target = (false, none)) ∧ d action target ≠ (false, none) := by
  induction ps with
  | nil => left; simp
  | cons p ps ih =>
    by_cases hp : p action target = (false, none)
    · rcases ih with hall | ⟨pre, d, post, hsplit, hpre, hd⟩
      · left
        intro q hq
        rcases List.mem_cons.mp hq with rfl | hq
        · exact hp
        · exact hall q hq
      · right
        refine ⟨p :: pre, d, post, by simp [hsplit], ?_, hd⟩
        intro q hq
        rcases List.mem_cons.mp hq with rfl | hq
        · exact hp
        · exact hpre q hq
    · right
      exact ⟨[], p, ps, rfl, by simp, hp⟩

/-- The result of a scan whose first decisive permission is `d`. -/
theorem Permissions.Can_at_decisive (pre post : Permissions) (d : Permission)
    (action target : GoString)
    (hpre : ∀ p ∈ pre, p action target = (false, none)) :
    (∀ e, (d action target).2 = some e →
      Permissions.Can (pre ++ d :: post) action target = (false, some e)) ∧
    (d action target = (true, none) →
      Permissions.Can (pre ++ d :: post) action target = (true, none)) := by
  rw [Permissions.Can_append_of_all_false pre _ action target hpre]
  exact ⟨fun e he => Permissions.Can_cons_err d post action target e he,
    fun ht => Permissions.Can_cons_true d post action target ht⟩

/-- If the scan reports a grant, some permission of the sequence returned `(true, nil)`
and every permission before it returned no error. -/
theorem Permissions.Can_true_iff_split (ps : Permissions) (action target : GoString) :
    (Permissions.Can ps action target).1 = true ↔
    ∃ pre d post, ps = pre ++ d :: post ∧ d action target = (true, none) ∧
      ∀ p ∈ pre, (p action target).2 = none := by
  constructor
  · intro h
    rcases Permissions.exists_first_decisive ps action target with hall | ⟨pre, d, post, hs, hpre, hd⟩
    · have h0 := Permissions.Can_append_of_all_false ps [] action target hall
      rw [List.append_nil, Permissions.Can_nil] at h0
      rw [h0] at h
      cases h
    · subst hs
      have hdec := Permissions.Can_at_decisive pre post d action target hpre
      rcases Result.cases (d action target) with hd' | hd' | ⟨e, hd'⟩
      · exact absurd hd' hd
      · exact ⟨pre, d, post, rfl, hd', fun p hp => by rw [hpre p hp]⟩
      · rw [hdec.1 e hd'] at h
        cases h
  · rintro ⟨pre, d, post, hs, hd, hpre⟩
    subst hs
    induction pre with
    | nil => rw [List.nil_append, Permissions.Can_cons_true _ _ _ _ hd]
    | cons p pre ih =>
      have hp : (p action target).2 = none := hpre p (List.mem_cons_self _ _)
      have hrest : ∀ q ∈ pre, (q action target).2 = none :=
        fun q hq => hpre q (List.mem_cons_of_mem _ hq)
      rcases Result.cases (p action target) with h | h | ⟨e, h⟩
      · rw [List.cons_append, Permissions.Can_cons_false _ _ _ _ h]
        exact ih hrest
      · rw [List.cons_append, Permissions.Can_cons_true _ _ _ _ h]
      · rw [hp] at h
        cases h

/-- A scan that reports a grant has a permission returning `(true, nil)`. -/
theorem Permissions.exists_grant_of_Can_true (ps : Permissions) (action target : GoString)
    (h : (Permissions.Can ps action target).1 = true) :
    ∃ d ∈ ps, d action target = (true, none) := by
  obtain ⟨pre, d, post, hs, hd, _⟩ := (Permissions.Can_true_iff_split ps action target).mp h
  exact ⟨d, by simp [hs], hd⟩

/-- A scan that ends without error and contains a permission returning `(true, nil)`
reports a grant. -/
theorem Permissions.Can_true_of_grant (ps : Permissions) (action target : GoString)
    (herr : (Permissions.Can ps action target).2 = none)
    (h : ∃ d ∈ ps, d action target = (true, none)) :
    (Permissions.Can ps action target).1 = true := by
  obtain ⟨g, hg, hgt⟩ := h
  rcases Permissions.exists_first_decisive ps action target with hall | ⟨pre, d, post, hs, hpre, hd⟩
  · rw [hall g hg] at hgt
    cases hgt
  · subst hs
    have hdec := Permissions.Can_at_decisive pre post d action target hpre
    rcases Result.cases (d action target) with hd' | hd' | ⟨e, hd'⟩
    · exact absurd hd' hd
    · rw [hdec.2 hd']
    · rw [hdec.1 e hd'] at herr
      cases herr

/-! ## Lemmas on `NewPermission` -/

theorem NewPermission_action_err (am tm : Matcher) (action target : GoString) (e : Error)
    (h : (am action).2 = some e) : NewPermission am tm action target = (false, some e) := by
  rcases ha : am action with ⟨b, err⟩
  rw [ha] at h
  cases h
  simp [NewPermission, ha]

theorem NewPermission_action_false (am tm : Matcher) (action target : GoString)
    (h : am action = (false, none)) : NewPermission am tm action target = (false, none) := by
  simp [NewPermission, h]

theorem NewPermission_action_true (am tm : Matcher) (action target : GoString)
    (h : am action = (true, none)) : NewPermission am tm action target = tm target := by
  simp [NewPermission, h]

/-! ## Lemmas on `MatchAny` -/

theorem MatchAny_cons_err (m : Matcher) (rest : List Matcher) (target : GoString)
    (e : Error) (h : (m target).2 = some e) :
    MatchAny (m :: rest) target = (false, some e) := by
  rcases hm : m target with ⟨b, err⟩
  rw [hm] at h
  cases h
  simp [MatchAny, hm]

theorem MatchAny_cons_true (m : Matcher) (rest : List Matcher) (target : GoString)
    (h : m target = (true, none)) : MatchAny (m :: rest) target = (true, none) := by
  simp [MatchAny, h]

theorem MatchAny_cons_false (m : Matcher) (rest : List Matcher) (target : GoString)
    (h : m target = (false, none)) : MatchAny (m :: rest) target = MatchAny rest target := by
  simp [MatchAny, h]

/-- Matchers that report no match without error are skipped by `MatchAny`. -/
theorem MatchAny_append_of_all_false (pre post : List Matcher) (target : GoString)
    (hpre : ∀ m ∈ pre, m target = (false, none)) :
    MatchAny (pre ++ post) target = MatchAny post target := by
  induction pre with
  | nil => rfl
  | cons m pre ih =>
    have hm : m target = (false, none) := hpre m (List.mem_cons_self _ _)
    have hrest : ∀ q ∈ pre, q target = (false, none) :=
      fun q hq => hpre q (List.mem_cons_of_mem _ hq)
    rw [List.cons_append, MatchAny_cons_false _ _ _ hm, ih hrest]

/-- Every matcher list either reports no match throughout or splits at its first
matcher that returns an error or `true`. -/
theorem MatchAny_exists_first_decisive (ms : List Matcher) (target : GoString) :
    (∀ m ∈ ms, m target = (false, none)) ∨
    ∃ pre d post, ms = pre ++ d :: post ∧
      (∀ m ∈ pre, m target = (false, none)) ∧ d target ≠ (false, none) := by
  induction ms with
  | nil => left; simp
  | cons m ms ih =>
    by_cases hm : m target = (false, none)
    · rcases ih with hall | ⟨pre, d, post, hsplit, hpre, hd⟩
      · left
        intro q hq
        rcases List.mem_cons.mp hq with rfl | hq
        · exact hm
        · exact hall q hq
      · right
        refine ⟨m :: pre, d, post, by simp [hsplit], ?_, hd⟩
        intro q hq
        rcases List.mem_cons.mp hq with rfl | hq
        · exact hm
        · exact hpre q hq
    · right
      exact ⟨[], m, ms, rfl, by simp, hm⟩

/-! ## Theorems on `Permissions.Can` and `NewPermission` -/

/-- C1: `Permissions.Can` is decided by the first permission, in sequence order, that
returns anything other than `(false, nil)`. If there is none (the empty sequence
included) the result is `(false, nil)`; if that permission returns a non-nil error `e`
the result is `(false, e)`; if it returns `(true, nil)` the result is `(true, nil)`; and
the result is the same whatever permissions follow the deciding one. Every sequence
falls under one of the two cases. -/
theorem Permissions.Can_decided_by_first (ps : Permissions) (action target : GoString) :
    Permissions.Can [] action target = (false, none) ∧
    ((∀ p ∈ ps, p action target = (false, none)) →
      Permissions.Can ps action target = (false, none)) ∧
    (∀ pre d post, ps = pre ++ d :: post →
      (∀ p ∈ pre, p action target = (false, none)) → d action target ≠ (false, none) →
      (∀ e, (d action target).2 = some e →
        Permissions.Can ps action target = (false, some e)) ∧
      (d action target = (true, none) → Permissions.Can ps action target = (true, none)) ∧
      (∀ post', Permissions.Can (pre ++ d :: post') action target
        = Permissions.Can ps action target)) ∧
    ((∀ p ∈ ps, p action target = (false, none)) ∨
      ∃ pre d post, ps = pre ++ d :: post ∧
        (∀ p ∈ pre, p action target = (false, none)) ∧ d action target ≠ (false, none)) := by
  refine ⟨rfl, ?_, ?_, Permissions.exists_first_decisive ps action target⟩
  · intro hall
    have h := Permissions.Can_append_of_all_false ps [] action target hall
    rwa [List.append_nil] at h
  · intro pre d post hsplit hpre hd
    subst hsplit
    have hdec := Permissions.Can_at_decisive pre post d action target hpre
    refine ⟨hdec.1, hdec.2, ?_⟩
    intro post'
    have hdec' := Permissions.Can_at_decisive pre post' d action target hpre
    rcases Result.cases (d action target) with h | h | ⟨e, h⟩
    · exact absurd h hd
    · rw [hdec.2 h, hdec'.2 h]
    · rw [hdec.1 e h, hdec'.1 e h]

/-- An instance of C1: a denying permission, then a failing one, then `AllowAll`. -/
theorem Permissions.Can_decided_by_first_witness :
    failWith "boom" [] [] ≠ (false, none) ∧
    Permissions.Can [DenyAll, failWith "boom", AllowAll] [] [] = (false, some ⟨"boom"⟩) ∧
    Permissions.Can [DenyAll, failWith "boom"] [] []
      = Permissions.Can [DenyAll, failWith "boom", AllowAll] [] [] := by
  have h := (Permissions.Can_decided_by_first [DenyAll, failWith "boom", AllowAll] [] []).2.2.1
    [DenyAll] (failWith "boom") [AllowAll] rfl (by simp [DenyAll]) (by simp [failWith])
  exact ⟨by simp [failWith], h.1 ⟨"boom"⟩ rfl, h.2.2 []⟩

/-- C2 (refuted as stated): with a failing permission in front of `AllowAll`, a
permission of the sequence returns true and `Can` does not. -/
theorem Permissions.Can_iff_any_counterexample :
    ¬ ((Permissions.Can [failWith "boom", AllowAll] [] []).1 = true ↔
        ∃ p ∈ [failWith "boom", AllowAll], (p [] []).1 = true) := by
  intro h
  have hcan : (Permissions.Can [failWith "boom", AllowAll] [] []).1 = true :=
    h.mpr ⟨AllowAll, by simp, rfl⟩
  simp [Permissions.Can, failWith] at hcan

/-- C2 (amended): `Permissions.Can` returns true if and only if some permission of the
sequence returns true with a nil error and no permission before it in the sequence
returns a non-nil error. -/
theorem Permissions.Can_true_iff (ps : Permissions) (action target : GoString) :
    (Permissions.Can ps action target).1 = true ↔
    ∃ pre d post, ps = pre ++ d :: post ∧ d action target = (true, none) ∧
      ∀ p ∈ pre, (p action target).2 = none :=
  Permissions.Can_true_iff_split ps action target

/-- C3 (refuted as stated): swapping a failing permission and `AllowAll` changes the
boolean returned by `Can`. -/
theorem Permissions.Can_perm_counterexample :
    List.Perm [failWith "boom", AllowAll] [AllowAll, failWith "boom"] ∧
    (Permissions.Can [failWith "boom", AllowAll] [] []).1
      ≠ (Permissions.Can [AllowAll, failWith "boom"] [] []).1 := by
  refine ⟨List.Perm.swap _ _ _, ?_⟩
  simp [Permissions.Can, failWith, AllowAll]

/-- C3 (amended): for a reordering `ps'` of `ps`, whenever neither `ps.Can` nor
`ps'.Can` returns an error, the two calls return the same boolean. -/
theorem Permissions.Can_perm (ps ps' : Permissions) (action target : GoString)
    (hperm : List.Perm ps ps')
    (herr : (Permissions.Can ps action target).2 = none)
    (herr' : (Permissions.Can ps' action target).2 = none) :
    (Permissions.Can ps action target).1 = (Permissions.Can ps' action target).1 := by
  have key : (Permissions.Can ps action target).1 = true ↔
      (Permissions.Can ps' action target).1 = true := by
    constructor
    · intro h
      obtain ⟨d, hd, hdt⟩ := Permissions.exists_grant_of_Can_true ps action target h
      exact Permissions.Can_true_of_grant ps' action target herr' ⟨d, hperm.mem_iff.mp hd, hdt⟩
    · intro h
      obtain ⟨d, hd, hdt⟩ := Permissions.exists_grant_of_Can_true ps' action target h
      exact Permissions.Can_true_of_grant ps action target herr ⟨d, hperm.mem_iff.mpr hd, hdt⟩
  exact Bool.eq_iff_iff.mpr key

/-- An instance of C3 (amended): a denying permission and `AllowAll`, swapped. -/
theorem Permissions.Can_perm_witness :
    List.Perm [DenyAll, AllowAll] [AllowAll, DenyAll] ∧
    (Permissions.Can [DenyAll, AllowAll] [] []).2 = none ∧
    (Permissions.Can [AllowAll, DenyAll] [] []).2 = none ∧
    (Permissions.Can [DenyAll, AllowAll] [] []).1
      = (Permissions.Can [AllowAll, DenyAll] [] []).1 :=
  ⟨List.Perm.swap _ _ _, rfl, rfl,
    Permissions.Can_perm [DenyAll, AllowAll] [AllowAll, DenyAll] [] []
      (List.Perm.swap _ _ _) rfl rfl⟩

/-- C4: the permission `NewPermission(am, tm)` returns `(false, e)` when `am(action)`
returns a non-nil error `e`; `(false, nil)` when `am(action)` returns false without
error, whatever the target matcher is; and exactly the pair returned by `tm(target)` when
`am(action)` returns true without error. -/
theorem NewPermission_spec (am tm : Matcher) (action target : GoString) :
    (∀ e, (am action).2 = some e → NewPermission am tm action target = (false, some e)) ∧
    (am action = (false, none) →
      ∀ tm' : Matcher, NewPermission am tm' action target = (false, none)) ∧
    (am action = (true, none) → NewPermission am tm action target = tm target) :=
  ⟨fun e h => NewPermission_action_err am tm action target e h,
   fun h tm' => NewPermission_action_false am tm' action target h,
   fun h => NewPermission_action_true am tm action target h⟩

/-- An instance of C4: a matching action matcher passes a target matcher's pair
`(true, e)` through unchanged. -/
theorem NewPermission_spec_witness :
    Anything [] = (true, none) ∧
    NewPermission Anything (trueWithError "bad") [] [] = (true, some ⟨"bad"⟩) :=
  ⟨rfl, (NewPermission_spec Anything (trueWithError "bad") [] []).2.2 rfl⟩

/-- C5: matcher errors surface unchanged and never as a grant: if every permission of
`pre` returns `(false, nil)` and either `am(action)` returns a non-nil error `e`, or
`am(action)` returns `(true, nil)` and `tm(target)` returns a non-nil error `e` (with any
boolean), then `(pre ++ [NewPermission(am, tm)] ++ post).Can(action, target)` returns
exactly `(false, e)`. -/
theorem Permissions.Can_matcher_error (am tm : Matcher) (pre post : Permissions)
    (action target : GoString) (e : Error)
    (hpre : ∀ p ∈ pre, p action target = (false, none))
    (herr : (am action).2 = some e ∨ (am action = (true, none) ∧ (tm target).2 = some e)) :
    Permissions.Can (pre ++ [NewPermission am tm] ++ post) action target = (false, some e) := by
  have hperm : (NewPermission am tm action target).2 = some e := by
    rcases herr with h | ⟨ha, ht⟩
    · rw [NewPermission_action_err am tm action target e h]
    · rw [NewPermission_action_true am tm action target ha, ht]
  rw [List.append_assoc, List.singleton_append]
  exact (Permissions.Can_at_decisive pre post (NewPermission am tm) action target hpre).1 e hperm

/-- An instance of C5: the target matcher reports `(true, e)` behind a denying
permission and in front of `AllowAll`. -/
theorem Permissions.Can_matcher_error_witness :
    (∀ p ∈ [DenyAll], p [] [] = (false, none)) ∧
    (Anything [] = (true, none) ∧ (trueWithError "bad" []).2 = some ⟨"bad"⟩) ∧
    Permissions.Can ([DenyAll] ++ [NewPermission Anything (trueWithError "bad")] ++ [AllowAll])
      [] [] = (false, some ⟨"bad"⟩) :=
  ⟨by simp [DenyAll], ⟨rfl, rfl⟩,
    Permissions.Can_matcher_error Anything (trueWithError "bad") [DenyAll] [AllowAll] [] []
      ⟨"bad"⟩ (by simp [DenyAll]) (Or.inr ⟨rfl, rfl⟩)⟩

/-! ## Theorems on `MatchAny` -/

/-- C10: `MatchAny(ms)(t)` is decided by the first matcher, in order, that returns an
error or true: the result is `(false, e)` if that matcher returns a non-nil error `e`,
`(true, nil)` if it returns true without error, and `(false, nil)` if there is no such
matcher, so `MatchAny()` over zero matchers returns `(false, nil)`. The result is the
same whatever matchers follow the deciding one. Every list falls under one of the two
cases. -/
theorem MatchAny_decided_by_first (ms : List Matcher) (target : GoString) :
    MatchAny [] target = (false, none) ∧
    ((∀ m ∈ ms, m target = (false, none)) → MatchAny ms target = (false, none)) ∧
    (∀ pre d post, ms = pre ++ d :: post →
      (∀ m ∈ pre, m target = (false, none)) → d target ≠ (false, none) →
      (∀ e, (d target).2 = some e → MatchAny ms target = (false, some e)) ∧
      (d target = (true, none) → MatchAny ms target = (true, none)) ∧
      (∀ post', MatchAny (pre ++ d :: post') target = MatchAny ms target)) ∧
    ((∀ m ∈ ms, m target = (false, none)) ∨
      ∃ pre d post, ms = pre ++ d :: post ∧
        (∀ m ∈ pre, m target = (false, none)) ∧ d target ≠ (false, none)) := by
  refine ⟨rfl, ?_, ?_, MatchAny_exists_first_decisive ms target⟩
  · intro hall
    have h := MatchAny_append_of_all_false ms [] target hall
    rwa [List.append_nil] at h
  · intro pre d post hsplit hpre hd
    subst hsplit
    have hskip : ∀ post', MatchAny (pre ++ d :: post') target = MatchAny (d :: post') target :=
      fun post' => MatchAny_append_of_all_false pre (d :: post') target hpre
    refine ⟨?_, ?_, ?_⟩
    · intro e he
      rw [hskip, MatchAny_cons_err d post target e he]
    · intro ht
      rw [hskip, MatchAny_cons_true d post target ht]
    · intro post'
      rw [hskip, hskip]
      rcases Result.cases (d target) with h | h | ⟨e, h⟩
      · exact absurd h hd
      · rw [MatchAny_cons_true d post' target h, MatchAny_cons_true d post target h]
      · rw [MatchAny_cons_err d post' target e h, MatchAny_cons_err d post target e h]

/-- An instance of C10: a non-matching matcher, then `Anything`, then a failing one. -/
theorem MatchAny_decided_by_first_witness :
    Anything [] ≠ (false, none) ∧
    MatchAny [Nothing, Anything, failMatch "late"] [] = (true, none) ∧
    MatchAny [Nothing, Anything] [] = MatchAny [Nothing, Anything, failMatch "late"] [] := by
  have h := (MatchAny_decided_by_first [Nothing, Anything, failMatch "late"] []).2.2.1
    [Nothing] Anything [failMatch "late"] rfl (by simp [Nothing]) (by simp [Anything])
  exact ⟨by simp [Anything], h.2.1 rfl, h.2.2 []⟩

/-! ## Lemmas on the string functions -/

theorem strings.Index_of_isPrefixOf (s sub : GoString) (h : sub.isPrefixOf s = true) :
    strings.Index s sub = 0 := by
  unfold strings.Index
  simp [h]

theorem strings.Index_nil_of_not_isPrefixOf (sub : GoString) (h : sub.isPrefixOf [] = false) :
    strings.Index [] sub = -1 := by
  unfold strings.Index
  simp [h]

theorem strings.Index_cons_of_not_isPrefixOf (c : Byte) (t sub : GoString)
    (h : sub.isPrefixOf (c :: t) = false) :
    strings.Index (c :: t) sub
      = if strings.Index t sub < 0 then -1 else strings.Index t sub + 1 := by
  rw [strings.Index]
  simp [h]

theorem strings.Index_ge (s sub : GoString) : -1 ≤ strings.Index s sub := by
  induction s with
  | nil =>
    cases h : sub.isPrefixOf []
    · rw [strings.Index_nil_of_not_isPrefixOf sub h]
    · rw [strings.Index_of_isPrefixOf [] sub h]; decide
  | cons c t ih =>
    cases h : sub.isPrefixOf (c :: t)
    · rw [strings.Index_cons_of_not_isPrefixOf c t sub h]
      split <;> omega
    · rw [strings.Index_of_isPrefixOf _ sub h]; decide

theorem strings.Index_eq_zero_iff (s sub : GoString) :
    strings.Index s sub = 0 ↔ sub <+: s := by
  rw [← List.isPrefixOf_iff_prefix]
  constructor
  · intro h0
    cases h : sub.isPrefixOf s
    · exfalso
      cases s with
      | nil =>
        rw [strings.Index_nil_of_not_isPrefixOf sub h] at h0
        omega
      | cons c t =>
        rw [strings.Index_cons_of_not_isPrefixOf c t sub h] at h0
        have := strings.Index_ge t sub
        split at h0 <;> omega
    · rfl
  · exact strings.Index_of_isPrefixOf s sub

/-- A non-negative index is the position of the leftmost occurrence. -/
theorem strings.Index_found (s sub : GoString) (h : 0 ≤ strings.Index s sub) :
    ∃ u v, s = u ++ sub ++ v ∧ (u.length : Int) = strings.Index s sub ∧
      ∀ u' v', s = u' ++ sub ++ v' → u.length ≤ u'.length := by
  induction s with
  | nil =>
    cases hp : sub.isPrefixOf []
    · rw [strings.Index_nil_of_not_isPrefixOf sub hp] at h
      omega
    · obtain ⟨v, hv⟩ := List.isPrefixOf_iff_prefix.mp hp
      exact ⟨[], v, by simp [hv], by rw [strings.Index_of_isPrefixOf _ _ hp]; rfl,
        fun _ _ _ => Nat.zero_le _⟩
  | cons c t ih =>
    cases hp : sub.isPrefixOf (c :: t)
    · rw [strings.Index_cons_of_not_isPrefixOf c t sub hp] at h ⊢
      have hge := strings.Index_ge t sub
      by_cases hneg : strings.Index t sub < 0
      · rw [if_pos hneg] at h
        omega
      · rw [if_neg hneg]
        obtain ⟨u, v, hs, hlen, hmin⟩ := ih (by omega)
        refine ⟨c :: u, v, by simp [hs], by simp [hlen], ?_⟩
        intro u' v' hs'
        cases u' with
        | nil =>
          exfalso
          have : sub <+: c :: t := ⟨v', by simpa using hs'.symm⟩
          rw [← List.isPrefixOf_iff_prefix, hp] at this
          cases this
        | cons d u'' =>
          have ht : t = u'' ++ sub ++ v' := by
            simp only [List.cons_append, List.cons.injEq] at hs'
            exact hs'.2
          have := hmin u'' v' ht
          simp only [List.length_cons]
          omega
    · obtain ⟨v, hv⟩ := List.isPrefixOf_iff_prefix.mp hp
      exact ⟨[], v, by simp [hv], by rw [strings.Index_of_isPrefixOf _ _ hp]; rfl,
        fun _ _ _ => Nat.zero_le _⟩

/-- A string that occurs is found. -/
theorem strings.Index_nonneg_of_occurs (u sub v : GoString) :
    0 ≤ strings.Index (u ++ sub ++ v) sub := by
  induction u with
  | nil =>
    have : sub.isPrefixOf ([] ++ sub ++ v) = true :=
      List.isPrefixOf_iff_prefix.mpr ⟨v, by simp⟩
    rw [strings.Index_of_isPrefixOf _ _ this]
  | cons c u ih =>
    cases hp : sub.isPrefixOf (c :: u ++ sub ++ v)
    · have hp' : sub.isPrefixOf (c :: (u ++ sub ++ v)) = false := by simpa using hp
      have : c :: u ++ sub ++ v = c :: (u ++ sub ++ v) := by simp
      rw [this, strings.Index_cons_of_not_isPrefixOf c _ sub hp']
      split <;> omega
    · rw [strings.Index_of_isPrefixOf _ _ hp]

theorem sliceFrom_append (u v : GoString) (k : Int) (hk : k = (u.length : Int)) :
    sliceFrom (u ++ v) k = some v := by
  subst hk
  unfold sliceFrom
  simp


theorem sliceFrom_zero (s : GoString) : sliceFrom s 0 = some s := by
  unfold sliceFrom
  simp

theorem strings.Index_empty (s : GoString) : strings.Index s [] = 0 :=
  strings.Index_of_isPrefixOf s [] (by simp)

theorem strings.Split_ne_nil (s : GoString) (sep : Byte) : strings.Split s sep ≠ [] := by
  cases s with
  | nil => simp [strings.Split]
  | cons c cs =>
    unfold strings.Split
    split
    · simp
    · split <;> simp

theorem strings.Split_cons_sep (s : GoString) (sep : Byte) :
    strings.Split (sep :: s) sep = [] :: strings.Split s sep := by
  rw [strings.Split]
  simp

theorem strings.Split_cons_ne (c : Byte) (s : GoString) (sep : Byte) (h : c ≠ sep)
    (p : GoString) (ps : List GoString) (hs : strings.Split s sep = p :: ps) :
    strings.Split (c :: s) sep = (c :: p) :: ps := by
  rw [strings.Split]
  simp [h, hs]

/-- A string without the separator is its own single part. -/
theorem strings.Split_of_not_mem (s : GoString) (sep : Byte) (h : sep ∉ s) :
    strings.Split s sep = [s] := by
  induction s with
  | nil => rfl
  | cons c cs ih =>
    have hc : c ≠ sep := fun hc => h (by simp [hc])
    have hcs : sep ∉ cs := fun hm => h (List.mem_cons_of_mem _ hm)
    exact strings.Split_cons_ne c cs sep hc cs [] (ih hcs)

/-- A string with the separator has at least two parts. -/
theorem strings.Split_length_of_mem (s : GoString) (sep : Byte) (h : sep ∈ s) :
    2 ≤ (strings.Split s sep).length := by
  induction s with
  | nil => simp at h
  | cons c cs ih =>
    by_cases hc : c = sep
    · subst hc
      rw [strings.Split_cons_sep]
      have := List.length_pos.mpr (strings.Split_ne_nil cs c)
      simp only [List.length_cons]
      omega
    · have hcs : sep ∈ cs := by
        rcases List.mem_cons.mp h with h | h
        · exact absurd h.symm hc
        · exact h
      obtain ⟨p, ps, hps⟩ := List.exists_cons_of_ne_nil (strings.Split_ne_nil cs sep)
      rw [strings.Split_cons_ne c cs sep hc p ps hps]
      have := ih hcs
      rw [hps] at this
      simpa using this

/-- Splitting at the first separator. -/
theorem strings.Split_append_sep (a b : GoString) (sep : Byte) (h : sep ∉ a) :
    strings.Split (a ++ sep :: b) sep = a :: strings.Split b sep := by
  induction a with
  | nil => exact strings.Split_cons_sep b sep
  | cons c cs ih =>
    have hc : c ≠ sep := fun hc => h (by simp [hc])
    have hcs : sep ∉ cs := fun hm => h (List.mem_cons_of_mem _ hm)
    exact strings.Split_cons_ne c (cs ++ sep :: b) sep hc cs _ (ih hcs)

/-- A trailing separator adds an empty last part. -/
theorem strings.Split_concat_sep (p : GoString) (sep : Byte) :
    strings.Split (p ++ [sep]) sep = strings.Split p sep ++ [[]] := by
  induction p with
  | nil => simp [strings.Split]
  | cons c cs ih =>
    by_cases hc : c = sep
    · subst hc
      rw [List.cons_append, strings.Split_cons_sep, strings.Split_cons_sep, ih]
      rfl
    · obtain ⟨q, qs, hq⟩ := List.exists_cons_of_ne_nil (strings.Split_ne_nil cs sep)
      rw [List.cons_append, strings.Split_cons_ne c cs sep hc q qs hq,
        strings.Split_cons_ne c (cs ++ [sep]) sep hc q (qs ++ [[]]) (by rw [ih, hq]; rfl)]
      rfl

theorem strings.HasPrefix_singleton (s : GoString) (c : Byte) :
    strings.HasPrefix s [c] = true ↔ ∃ t, s = c :: t := by
  unfold strings.HasPrefix
  rw [List.isPrefixOf_iff_prefix]
  constructor
  · rintro ⟨t, rfl⟩
    exact ⟨t, rfl⟩
  · rintro ⟨t, rfl⟩
    exact ⟨t, rfl⟩

theorem strings.HasSuffix_singleton (s : GoString) (c : Byte) :
    strings.HasSuffix s [c] = true ↔ ∃ t, s = t ++ [c] := by
  unfold strings.HasSuffix
  rw [List.isSuffixOf_iff_suffix]
  constructor
  · rintro ⟨t, rfl⟩
    exact ⟨t, rfl⟩
  · rintro ⟨t, rfl⟩
    exact ⟨t, rfl⟩

/-- No part of a split contains the separator. -/
theorem strings.Split_not_mem (s : GoString) (sep : Byte) :
    ∀ p ∈ strings.Split s sep, sep ∉ p := by
  induction s with
  | nil => simp [strings.Split]
  | cons c cs ih =>
    by_cases hc : c = sep
    · subst hc
      rw [strings.Split_cons_sep]
      intro p hp
      rcases List.mem_cons.mp hp with rfl | hp
      · simp
      · exact ih p hp
    · obtain ⟨q, qs, hq⟩ := List.exists_cons_of_ne_nil (strings.Split_ne_nil cs sep)
      rw [strings.Split_cons_ne c cs sep hc q qs hq]
      rw [hq] at ih
      intro p hp
      rcases List.mem_cons.mp hp with rfl | hp
      · intro hmem
        rcases List.mem_cons.mp hmem with h | h
        · exact hc h.symm
        · exact ih q (List.mem_cons_self _ _) h
      · exact ih p (List.mem_cons_of_mem _ hp)

/-- Joining the parts of a split with the separator gives the string back. -/
theorem strings.Split_intercalate (s : GoString) (sep : Byte) :
    List.intercalate [sep] (strings.Split s sep) = s := by
  induction s with
  | nil => rfl
  | cons c cs ih =>
    obtain ⟨q, qs, hq⟩ := List.exists_cons_of_ne_nil (strings.Split_ne_nil cs sep)
    rw [hq] at ih
    by_cases hc : c = sep
    · subst hc
      rw [strings.Split_cons_sep, hq]
      simpa [List.intercalate, List.intersperse] using ih
    · rw [strings.Split_cons_ne c cs sep hc q qs hq]
      cases qs with
      | nil => simpa [List.intercalate, List.intersperse] using ih
      | cons r rs => simpa [List.intercalate, List.intersperse] using ih

/-- A negative index means that the string does not occur. -/
theorem strings.Index_neg_iff (s sub : GoString) :
    strings.Index s sub < 0 ↔ ¬ sub <:+: s := by
  constructor
  · rintro hneg ⟨u, v, rfl⟩
    have := strings.Index_nonneg_of_occurs u sub v
    omega
  · intro hno
    by_contra hnn
    obtain ⟨u, v, hs, _, _⟩ := strings.Index_found s sub (by omega)
    exact hno ⟨u, v, hs.symm⟩


/-! ## Lemmas on the loop of `Glob` -/

/-- From the second iteration on, the loop depends neither on the index nor on
`leadingGlob`. -/
theorem Glob.loop_succ_irrel (lg lg' : Bool) (ps : List GoString) :
    ∀ (i j : Nat) (z : GoString),
      Glob.loop lg (i + 1) ps z = Glob.loop lg' (j + 1) ps z := by
  induction ps with
  | nil => intro i j z; rfl
  | cons p rest ih =>
    intro i j z
    rw [Glob.loop, Glob.loop]
    simp only [Nat.succ_ne_zero, if_false, Nat.add_one_ne_zero]
    split
    · rfl
    · split
      · rfl
      · exact ih _ _ _

theorem Glob.loop_mid_not_found (lg : Bool) (i : Nat) (p : GoString) (rest : List GoString)
    (z : GoString) (h : strings.Index z p < 0) :
    Glob.loop lg (i + 1) (p :: rest) z = .returned false := by
  rw [Glob.loop]
  simp [h]

theorem Glob.loop_mid_found (lg : Bool) (i : Nat) (p : GoString) (rest : List GoString)
    (z u v : GoString) (hz : z = u ++ p ++ v) (h : (u.length : Int) = strings.Index z p) :
    Glob.loop lg (i + 1) (p :: rest) z = Glob.loop lg (i + 2) rest v := by
  have hs : sliceFrom z (strings.Index z p + (p.length : Int)) = some v := by
    rw [← h, hz]
    exact sliceFrom_append (u ++ p) v _ (by simp)
  have hnn : ¬ strings.Index z p < 0 := by rw [← h]; omega
  rw [Glob.loop]
  simp [hnn, hs]

/-- The first iteration of the loop: the first part has to be a prefix of the subject
(an empty first part, as a leading glob gives, always is). -/
theorem Glob.loop_zero (lg : Bool) (first : GoString) (mids : List GoString) (s : GoString)
    (hlead : lg = true → first = []) :
    Glob.loop lg 0 (first :: mids) s =
      if first.isPrefixOf s then Glob.loop false 1 mids (s.drop first.length)
      else .returned false := by
  cases hp : first.isPrefixOf s
  · have hlg : lg = false := by
      cases lg
      · rfl
      · rw [hlead rfl] at hp
        simp at hp
    have hidx : strings.Index s first ≠ 0 := by
      intro h0
      rw [strings.Index_eq_zero_iff, ← List.isPrefixOf_iff_prefix, hp] at h0
      cases h0
    rw [Glob.loop]
    simp [hlg, hidx]
  · obtain ⟨v, hv⟩ := List.isPrefixOf_iff_prefix.mp hp
    have hidx : strings.Index s first = 0 := strings.Index_of_isPrefixOf s first hp
    have hs : sliceFrom s (0 + (first.length : Int)) = some v := by
      rw [← hv]
      exact sliceFrom_append first v _ (by simp)
    have hdrop : s.drop first.length = v := by rw [← hv]; simp
    rw [Glob.loop]
    simp only [hidx, hs, hdrop]
    simp only [ne_eq, not_true_eq_false, decide_False, Bool.and_false, if_true]
    exact Glob.loop_succ_irrel lg false mids 0 0 v

/-- The shape of `Glob` on a pattern with at least one glob: the first part is a prefix
of the subject, the middle parts are found from left to right, and the last part is a
suffix of what remains. -/
theorem Glob_eq_of_parts (pattern s first : GoString) (mids : List GoString) (last : GoString)
    (hsplit : strings.Split pattern GLOB = first :: (mids ++ [last])) :
    Glob pattern s =
      if first.isPrefixOf s then
        match Glob.loop false 1 mids (s.drop first.length) with
        | .returned b => some b
        | .panicked => none
        | .finished s' => some (last.isSuffixOf s')
      else some false := by
  have hne : pattern ≠ [] := by
    rintro rfl
    simp [strings.Split] at hsplit
  have hlen : (strings.Split pattern GLOB).length = mids.length + 2 := by
    rw [hsplit]; simp
  have htake : (strings.Split pattern GLOB).take ((strings.Split pattern GLOB).length - 1)
      = first :: mids := by
    rw [hlen, hsplit]
    simp
  have hget : (strings.Split pattern GLOB)[(strings.Split pattern GLOB).length - 1]?
      = some last := by
    rw [hlen, hsplit]
    simp
  have hlead : strings.HasPrefix pattern [GLOB] = true → first = [] := by
    intro h
    obtain ⟨t, rfl⟩ := (strings.HasPrefix_singleton pattern GLOB).mp h
    rw [strings.Split_cons_sep] at hsplit
    exact (List.cons.inj hsplit).1.symm
  have htrail : strings.HasSuffix pattern [GLOB] = true → last = [] := by
    intro h
    obtain ⟨t, rfl⟩ := (strings.HasSuffix_singleton pattern GLOB).mp h
    rw [strings.Split_concat_sep, ← List.cons_append] at hsplit
    have := List.append_inj_right' hsplit rfl
    exact (List.cons.inj this).1.symm
  have hfin : ∀ s' : GoString,
      (strings.HasSuffix pattern [GLOB] || strings.HasSuffix s' last) = last.isSuffixOf s' := by
    intro s'
    cases ht : strings.HasSuffix pattern [GLOB]
    · rfl
    · rw [htrail ht]
      simp
  by_cases hg : pattern = [GLOB]
  · have hf : first = [] := hlead (by rw [hg]; decide)
    have hl : last = [] := htrail (by rw [hg]; decide)
    have hm : mids = [] := by
      have h2 : (strings.Split pattern GLOB).length = 2 := by rw [hg]; decide
      rw [hlen] at h2
      exact List.length_eq_zero.mp (by omega)
    subst hf hl hm
    simp [Glob, hg, Glob.loop]
  · have hlen1 : (strings.Split pattern GLOB).length ≠ 1 := by rw [hlen]; omega
    unfold Glob
    simp only [hne, hg, if_false, hlen1, htake, hget]
    rw [Glob.loop_zero _ first mids s hlead]
    cases hp : first.isPrefixOf s
    · simp
    · simp only [if_true]
      cases Glob.loop false 1 mids (s.drop first.length) with
      | returned b => rfl
      | panicked => rfl
      | finished s' => simp only [hfin]

/-- The only value the loop body returns is `false`. -/
theorem Glob.loop_returned (lg : Bool) (ps : List GoString) :
    ∀ (i : Nat) (z : GoString) (b : Bool), Glob.loop lg i ps z = .returned b → b = false := by
  induction ps with
  | nil =>
    intro i z b h
    rw [Glob.loop] at h
    cases h
  | cons p rest ih =>
    intro i z b h
    rw [Glob.loop] at h
    by_cases hstop : (if i = 0 then (!lg && decide (strings.Index z p ≠ 0))
        else decide (strings.Index z p < 0)) = true
    · rw [if_pos hstop] at h
      injection h with h
      exact h.symm
    · rw [if_neg hstop] at h
      cases hs : sliceFrom z (strings.Index z p + (p.length : Int)) with
      | none =>
        rw [hs] at h
        cases h
      | some z2 =>
        rw [hs] at h
        exact ih _ _ b h

/-! ## Ordered occurrence and the leftmost scan -/

theorem OccursInOrder.extend_left (ps : List GoString) (w v : GoString)
    (h : OccursInOrder ps v) : OccursInOrder ps (w ++ v) := by
  cases ps with
  | nil => trivial
  | cons p rest =>
    obtain ⟨u, v', hv, hrest⟩ := h
    exact ⟨w ++ u, v', by simp [hv], hrest⟩

theorem OccursInOrder.extend_right (ps : List GoString) :
    ∀ (v y : GoString), OccursInOrder ps v → OccursInOrder ps (v ++ y) := by
  induction ps with
  | nil => intro v y _; trivial
  | cons p rest ih =>
    intro v y h
    obtain ⟨u, v', hv, hrest⟩ := h
    exact ⟨u, v' ++ y, by simp [hv], ih v' y hrest⟩

/-- What the loop found: if the middle iterations run to the end leaving `z'`, the
parts occur in order in `z`, followed by `z'`. -/
theorem Glob.loop_mid_sound (mids : List GoString) :
    ∀ (i : Nat) (z z' : GoString), Glob.loop false (i + 1) mids z = .finished z' →
      ∀ tail : List GoString, OccursInOrder tail z' → OccursInOrder (mids ++ tail) z := by
  induction mids with
  | nil =>
    intro i z z' h tail ht
    rw [Glob.loop] at h
    cases h
    exact ht
  | cons p rest ih =>
    intro i z z' h tail ht
    by_cases hneg : strings.Index z p < 0
    · rw [Glob.loop_mid_not_found false i p rest z hneg] at h
      cases h
    · obtain ⟨u, v, hz, hlen, _⟩ := strings.Index_found z p (by omega)
      rw [Glob.loop_mid_found false i p rest z u v hz hlen] at h
      exact ⟨u, v, hz, ih (i + 1) v z' h tail ht⟩

/-- The leftmost scan is complete: parts that occur in order are all found. -/
theorem Glob.loop_mid_complete (ps : List GoString) :
    ∀ (i : Nat) (z : GoString), OccursInOrder ps z →
      ∃ z', Glob.loop false (i + 1) ps z = .finished z' := by
  induction ps with
  | nil =>
    intro i z _
    exact ⟨z, by rw [Glob.loop]⟩
  | cons p rest ih =>
    intro i z h
    obtain ⟨u, v, hz, hrest⟩ := h
    have hnn : 0 ≤ strings.Index z p := by
      rw [hz]
      exact strings.Index_nonneg_of_occurs u p v
    obtain ⟨u0, v0, hz0, hlen0, hmin⟩ := strings.Index_found z p hnn
    have hle : u0.length ≤ u.length := hmin u v hz
    have hpre : u0 ++ p <+: u ++ p :=
      List.prefix_of_prefix_length_le ⟨v0, hz0.symm⟩ ⟨v, hz.symm⟩
        (by simp only [List.length_append]; omega)
    obtain ⟨w, hw⟩ := hpre
    have hv0 : v0 = w ++ v := by
      have : u0 ++ p ++ v0 = u0 ++ p ++ (w ++ v) := by
        rw [← hz0, hz, ← hw, List.append_assoc (u0 ++ p)]
      exact List.append_cancel_left this
    rw [Glob.loop_mid_found false i p rest z u0 v0 hz0 hlen0]
    exact ih (i + 1) v0 (by rw [hv0]; exact OccursInOrder.extend_left rest w v hrest)

/-- A list with at least two entries has a first entry, middle entries and a last one. -/
theorem exists_first_mids_last {α : Type} (l : List α) (h : 2 ≤ l.length) :
    ∃ first mids last, l = first :: (mids ++ [last]) := by
  cases l with
  | nil => simp at h
  | cons first rest =>
    have hne : rest ≠ [] := by
      intro h0
      rw [h0] at h
      simp at h
    exact ⟨first, rest.dropLast, rest.getLast hne, by rw [List.dropLast_append_getLast hne]⟩

/-- A pattern without glob is compared with the subject for equality. -/
theorem Glob_of_not_mem (p s : GoString) (h : GLOB ∉ p) : Glob p s = some (decide (p = s)) := by
  have hdec : decide (s = p) = decide (p = s) := by
    by_cases hps : p = s
    · simp [hps]
    · have : ¬ s = p := fun h' => hps h'.symm
      simp [hps, this]
  have hg : p ≠ [GLOB] := by
    rintro rfl
    exact h (List.mem_singleton_self _)
  unfold Glob
  by_cases hp : p = []
  · simp [hp, eq_comm]
  · simp [hp, hg, strings.Split_of_not_mem p GLOB h, hdec]

/-- Soundness of `Glob` with respect to ordered occurrence of the parts. -/
theorem Glob_occurs (p s : GoString) (h : Glob p s = some true) :
    OccursInOrder (strings.Split p GLOB) s := by
  by_cases hmem : GLOB ∈ p
  · obtain ⟨first, mids, last, hsplit⟩ :=
      exists_first_mids_last _ (strings.Split_length_of_mem p GLOB hmem)
    rw [Glob_eq_of_parts p s first mids last hsplit] at h
    rw [hsplit]
    cases hp : first.isPrefixOf s
    · rw [hp] at h
      simp at h
    · rw [hp, if_pos rfl] at h
      obtain ⟨v, hv⟩ := List.isPrefixOf_iff_prefix.mp hp
      have hdrop : s.drop first.length = v := by rw [← hv]; simp
      rw [hdrop] at h
      cases hl : Glob.loop false 1 mids v with
      | returned b =>
        rw [hl, Glob.loop_returned false mids 1 v b hl] at h
        cases h
      | panicked => rw [hl] at h; cases h
      | finished s' =>
        rw [hl] at h
        have hsuf : last.isSuffixOf s' = true := by simpa using h
        obtain ⟨t, ht⟩ := List.isSuffixOf_iff_suffix.mp hsuf
        have hocc : OccursInOrder [last] s' := ⟨t, [], by simp [ht], trivial⟩
        exact ⟨[], v, by simp [hv], Glob.loop_mid_sound mids 0 v s' hl [last] hocc⟩
  · rw [Glob_of_not_mem p s hmem] at h
    have hps : p = s := by simpa using h
    rw [strings.Split_of_not_mem p GLOB hmem, ← hps]
    exact ⟨[], [], by simp, trivial⟩

/-! ## Theorems on `Glob` -/

/-- C6: for `a` and `b` without glob, `Glob(a ++ "*" ++ b, s)` is true if and only if `s`
starts with `a` and the rest of `s` after that prefix ends with `b`; equivalently, `s`
starts with `a`, ends with `b` and `len(s) >= len(a) + len(b)`; otherwise it is false.
In particular `Glob("a*b", "axxxb")` is true, `Glob("a*b", "axxx")` and
`Glob("a*b", "xab")` are false. -/
theorem Glob_single_glob :
    (∀ a b s : GoString, GLOB ∉ a → GLOB ∉ b →
      (Glob (a ++ [GLOB] ++ b) s = some true ↔ a <+: s ∧ b <:+ s.drop a.length) ∧
      (Glob (a ++ [GLOB] ++ b) s = some true ↔
        a <+: s ∧ b <:+ s ∧ a.length + b.length ≤ s.length) ∧
      (Glob (a ++ [GLOB] ++ b) s = some true ∨ Glob (a ++ [GLOB] ++ b) s = some false)) ∧
    Glob (ascii "a*b") (ascii "axxxb") = some true ∧
    Glob (ascii "a*b") (ascii "axxx") = some false ∧
    Glob (ascii "a*b") (ascii "xab") = some false := by
  refine ⟨?_, by decide, by decide, by decide⟩
  intro a b s ha hb
  have hsplit : strings.Split (a ++ [GLOB] ++ b) GLOB = a :: ([] ++ [b]) := by
    rw [List.append_assoc, List.singleton_append, strings.Split_append_sep a b GLOB ha,
      strings.Split_of_not_mem b GLOB hb]
    rfl
  have hform : Glob (a ++ [GLOB] ++ b) s
      = some (a.isPrefixOf s && b.isSuffixOf (s.drop a.length)) := by
    rw [Glob_eq_of_parts _ s a [] b hsplit]
    cases a.isPrefixOf s <;> simp [Glob.loop]
  have h1 : Glob (a ++ [GLOB] ++ b) s = some true ↔ a <+: s ∧ b <:+ s.drop a.length := by
    rw [hform, ← List.isPrefixOf_iff_prefix, ← List.isSuffixOf_iff_suffix]
    simp
  have h2 : (a <+: s ∧ b <:+ s.drop a.length) ↔
      (a <+: s ∧ b <:+ s ∧ a.length + b.length ≤ s.length) := by
    constructor
    · rintro ⟨hpre, hsuf⟩
      have hsuf' : b <:+ s := hsuf.trans (List.drop_suffix _ _)
      have hlen := hsuf.length_le
      have hlen' := hpre.length_le
      simp only [List.length_drop] at hlen
      exact ⟨hpre, hsuf', by omega⟩
    · rintro ⟨hpre, hsuf, hlen⟩
      refine ⟨hpre, ?_⟩
      exact List.suffix_of_suffix_length_le hsuf (List.drop_suffix _ _)
        (by simp only [List.length_drop]; omega)
  refine ⟨h1, h1.trans h2, ?_⟩
  rw [hform]
  cases (a.isPrefixOf s && b.isSuffixOf (s.drop a.length)) <;> simp

/-- An instance of C6: pattern `"ab*c"` and subject `"abxc"`. -/
theorem Glob_single_glob_witness :
    GLOB ∉ ascii "ab" ∧ GLOB ∉ ascii "c" ∧
    ascii "ab" <+: ascii "abxc" ∧ ascii "c" <:+ (ascii "abxc").drop (ascii "ab").length ∧
    Glob (ascii "ab" ++ [GLOB] ++ ascii "c") (ascii "abxc") = some true :=
  ⟨by decide, by decide, by decide, by decide,
    ((Glob_single_glob.1 (ascii "ab") (ascii "c") (ascii "abxc") (by decide) (by decide)).1).mpr
      ⟨by decide, by decide⟩⟩

/-- C7: for a pattern `p` without glob (the empty pattern included), `Glob(p, s)`
equals `p == s`; in particular `Glob("", "")` is true and `Glob("", "x")` is false. -/
theorem Glob_no_glob :
    (∀ p s : GoString, GLOB ∉ p → Glob p s = some (decide (p = s))) ∧
    Glob [] [] = some true ∧
    Glob [] (ascii "x") = some false :=
  ⟨fun p s h => Glob_of_not_mem p s h, by decide, by decide⟩

/-- An instance of C7: pattern `"read"` against the subjects `"read"` and `"reads"`. -/
theorem Glob_no_glob_witness :
    GLOB ∉ ascii "read" ∧
    Glob (ascii "read") (ascii "read") = some true ∧
    Glob (ascii "read") (ascii "reads") = some false :=
  ⟨by decide,
    (Glob_no_glob.1 (ascii "read") (ascii "read") (by decide)).trans (by decide),
    (Glob_no_glob.1 (ascii "read") (ascii "reads") (by decide)).trans (by decide)⟩

/-- C8: `Glob("*", s)` is true for every subject `s`, the empty string included. -/
theorem Glob_glob_only (s : GoString) : Glob (ascii "*") s = some true := by
  have h : ascii "*" = [GLOB] := by decide
  rw [h]
  simp [Glob]

/-- C9: leading and trailing globs permit any surrounding text: if `Glob(p, s)` is true
then `Glob("*" ++ p ++ "*", x ++ s ++ y)` is true. In particular `Glob("a*b", "azb")` and
`Glob("*a*b*", "zazbzz")` are true. -/
theorem Glob_surround :
    (∀ p x s y : GoString, Glob p s = some true →
      Glob ([GLOB] ++ p ++ [GLOB]) (x ++ s ++ y) = some true) ∧
    Glob (ascii "a*b") (ascii "azb") = some true ∧
    Glob (ascii "*a*b*") (ascii "zazbzz") = some true := by
  refine ⟨?_, by decide, by decide⟩
  intro p x s y h
  have hocc : OccursInOrder (strings.Split p GLOB) (x ++ s ++ y) := by
    rw [List.append_assoc]
    exact OccursInOrder.extend_left _ x _
      (OccursInOrder.extend_right _ s y (Glob_occurs p s h))
  have hsplit : strings.Split ([GLOB] ++ p ++ [GLOB]) GLOB
      = [] :: (strings.Split p GLOB ++ [[]]) := by
    rw [strings.Split_concat_sep, List.singleton_append, strings.Split_cons_sep]
    rfl
  rw [Glob_eq_of_parts _ (x ++ s ++ y) [] (strings.Split p GLOB) [] hsplit]
  obtain ⟨z', hz'⟩ := Glob.loop_mid_complete (strings.Split p GLOB) 0 (x ++ s ++ y) hocc
  simp only [List.isPrefixOf, if_true, List.length_nil, List.drop_zero]
  simp only [Nat.zero_add] at hz'
  rw [hz']
  simp

/-- An instance of C9: pattern `"a*b"`, subject `"azb"`, surrounded by `"z"` and `"zz"`. -/
theorem Glob_surround_witness :
    Glob (ascii "a*b") (ascii "azb") = some true ∧
    Glob ([GLOB] ++ ascii "a*b" ++ [GLOB]) (ascii "z" ++ ascii "azb" ++ ascii "zz") = some true :=
  ⟨by decide,
    Glob_surround.1 (ascii "a*b") (ascii "z") (ascii "azb") (ascii "zz") (by decide)⟩

/-! ## `MatchAll` -/

theorem MatchAll_cons_err (m : Matcher) (rest : List Matcher) (target : GoString)
    (e : Error) (h : (m target).2 = some e) :
    MatchAll (m :: rest) target = (false, some e) := by
  rcases hm : m target with ⟨b, err⟩
  rw [hm] at h
  cases h
  simp [MatchAll, hm]

theorem MatchAll_cons_false (m : Matcher) (rest : List Matcher) (target : GoString)
    (h : m target = (false, none)) : MatchAll (m :: rest) target = (false, none) := by
  simp [MatchAll, h]

theorem MatchAll_cons_true (m : Matcher) (rest : List Matcher) (target : GoString)
    (h : m target = (true, none)) : MatchAll (m :: rest) target = MatchAll rest target := by
  simp [MatchAll, h]

/-- Matchers that report a match without error are passed over by `MatchAll`. -/
theorem MatchAll_append_of_all_true (pre post : List Matcher) (target : GoString)
    (hpre : ∀ m ∈ pre, m target = (true, none)) :
    MatchAll (pre ++ post) target = MatchAll post target := by
  induction pre with
  | nil => rfl
  | cons m pre ih =>
    have hm : m target = (true, none) := hpre m (List.mem_cons_self _ _)
    have hrest : ∀ q ∈ pre, q target = (true, none) :=
      fun q hq => hpre q (List.mem_cons_of_mem _ hq)
    rw [List.cons_append, MatchAll_cons_true _ _ _ hm, ih hrest]

/-- Every matcher list either matches throughout or splits at its first matcher that
returns an error or `false`. -/
theorem MatchAll_exists_first_decisive (ms : List Matcher) (target : GoString) :
    (∀ m ∈ ms, m target = (true, none)) ∨
    ∃ pre d post, ms = pre ++ d :: post ∧
      (∀ m ∈ pre, m target = (true, none)) ∧ d target ≠ (true, none) := by
  induction ms with
  | nil => left; simp
  | cons m ms ih =>
    by_cases hm : m target = (true, none)
    · rcases ih with hall | ⟨pre, d, post, hsplit, hpre, hd⟩
      · left
        intro q hq
        rcases List.mem_cons.mp hq with rfl | hq
        · exact hm
        · exact hall q hq
      · right
        refine ⟨m :: pre, d, post, by simp [hsplit], ?_, hd⟩
        intro q hq
        rcases List.mem_cons.mp hq with rfl | hq
        · exact hm
        · exact hpre q hq
    · right
      exact ⟨[], m, ms, rfl, by simp, hm⟩

/-- C11: `MatchAll(ms)(t)` is decided by the first matcher, in order, that returns an
error or false: the result is `(false, e)` if that matcher returns a non-nil error `e`,
`(false, nil)` if it returns false without error, and `(true, nil)` if there is no such
matcher, so `MatchAll()` over zero matchers returns `(true, nil)`. The result is the same
whatever matchers follow the deciding one. Every list falls under one of the two
cases. -/
theorem MatchAll_decided_by_first (ms : List Matcher) (target : GoString) :
    MatchAll [] target = (true, none) ∧
    ((∀ m ∈ ms, m target = (true, none)) → MatchAll ms target = (true, none)) ∧
    (∀ pre d post, ms = pre ++ d :: post →
      (∀ m ∈ pre, m target = (true, none)) → d target ≠ (true, none) →
      (∀ e, (d target).2 = some e → MatchAll ms target = (false, some e)) ∧
      (d target = (false, none) → MatchAll ms target = (false, none)) ∧
      (∀ post', MatchAll (pre ++ d :: post') target = MatchAll ms target)) ∧
    ((∀ m ∈ ms, m target = (true, none)) ∨
      ∃ pre d post, ms = pre ++ d :: post ∧
        (∀ m ∈ pre, m target = (true, none)) ∧ d target ≠ (true, none)) := by
  refine ⟨rfl, ?_, ?_, MatchAll_exists_first_decisive ms target⟩
  · intro hall
    have h := MatchAll_append_of_all_true ms [] target hall
    rwa [List.append_nil] at h
  · intro pre d post hsplit hpre hd
    subst hsplit
    have hskip : ∀ post', MatchAll (pre ++ d :: post') target = MatchAll (d :: post') target :=
      fun post' => MatchAll_append_of_all_true pre (d :: post') target hpre
    refine ⟨?_, ?_, ?_⟩
    · intro e he
      rw [hskip, MatchAll_cons_err d post target e he]
    · intro hf
      rw [hskip, MatchAll_cons_false d post target hf]
    · intro post'
      rw [hskip, hskip]
      rcases Result.cases (d target) with h | h | ⟨e, h⟩
      · rw [MatchAll_cons_false d post' target h, MatchAll_cons_false d post target h]
      · exact absurd h hd
      · rw [MatchAll_cons_err d post' target e h, MatchAll_cons_err d post target e h]

/-- An instance of C11: `Anything`, then a non-matching matcher, then a failing one. -/
theorem MatchAll_decided_by_first_witness :
    Nothing [] ≠ (true, none) ∧
    MatchAll [Anything, Nothing, failMatch "late"] [] = (false, none) ∧
    MatchAll [Anything, Nothing] [] = MatchAll [Anything, Nothing, failMatch "late"] [] := by
  have h := (MatchAll_decided_by_first [Anything, Nothing, failMatch "late"] []).2.2.1
    [Anything] Nothing [failMatch "late"] rfl (by simp [Anything]) (by simp [Nothing])
  exact ⟨by simp [Nothing], h.2.1 rfl, h.2.2 []⟩

/-! ## Totality of `Glob` -/

/-- The remainder after the leftmost occurrence contains the remainder after any other
occurrence. -/
theorem strings.Index_found_suffix (z u p v : GoString) (hz : z = u ++ p ++ v) :
    ∃ u0 v0, z = u0 ++ p ++ v0 ∧ (u0.length : Int) = strings.Index z p ∧ v <:+ v0 := by
  have hnn : 0 ≤ strings.Index z p := by
    rw [hz]
    exact strings.Index_nonneg_of_occurs u p v
  obtain ⟨u0, v0, hz0, hlen0, hmin⟩ := strings.Index_found z p hnn
  have hle : u0.length ≤ u.length := hmin u v hz
  have hpre : u0 ++ p <+: u ++ p :=
    List.prefix_of_prefix_length_le ⟨v0, hz0.symm⟩ ⟨v, hz.symm⟩
      (by simp only [List.length_append]; omega)
  obtain ⟨w, hw⟩ := hpre
  have hv0 : v0 = w ++ v := by
    have : u0 ++ p ++ v0 = u0 ++ p ++ (w ++ v) := by
      rw [← hz0, hz, ← hw, List.append_assoc (u0 ++ p)]
    exact List.append_cancel_left this
  exact ⟨u0, v0, hz0, hlen0, ⟨w, hv0.symm⟩⟩

/-- From the second iteration on, the trim is never out of range. -/
theorem Glob.loop_mid_ne_panicked (mids : List GoString) :
    ∀ (i : Nat) (z : GoString), Glob.loop false (i + 1) mids z ≠ .panicked := by
  induction mids with
  | nil =>
    intro i z h
    rw [Glob.loop] at h
    cases h
  | cons p rest ih =>
    intro i z
    by_cases hneg : strings.Index z p < 0
    · rw [Glob.loop_mid_not_found false i p rest z hneg]
      intro h
      cases h
    · obtain ⟨u, v, hz, hlen, _⟩ := strings.Index_found z p (by omega)
      rw [Glob.loop_mid_found false i p rest z u v hz hlen]
      exact ih (i + 1) v

/-- `Glob` returns a boolean on every input. -/
theorem Glob_total (p s : GoString) : ∃ b, Glob p s = some b := by
  by_cases hmem : GLOB ∈ p
  · obtain ⟨first, mids, last, hsplit⟩ :=
      exists_first_mids_last _ (strings.Split_length_of_mem p GLOB hmem)
    rw [Glob_eq_of_parts p s first mids last hsplit]
    cases first.isPrefixOf s
    · exact ⟨false, by simp⟩
    · rw [if_pos rfl]
      cases hl : Glob.loop false 1 mids (s.drop first.length) with
      | returned b => exact ⟨b, rfl⟩
      | panicked => exact absurd hl (Glob.loop_mid_ne_panicked mids 0 _)
      | finished s' => exact ⟨_, rfl⟩
  · exact ⟨_, Glob_of_not_mem p s hmem⟩

/-! ## `Glob` and the standard wildcard semantics -/

theorem weave_cons_cons (seg next : GoString) (rest : List GoString) (x : GoString)
    (xs : List GoString) :
    weave (seg :: next :: rest) (x :: xs) = seg ++ x ++ weave (next :: rest) xs := by
  simp [weave]

/-- The two formulations of the standard wildcard semantics agree. -/
theorem WildMatch_iff_step (segs : List GoString) :
    ∀ s : GoString, WildMatch segs s ↔ WildMatch.step segs s := by
  induction segs with
  | nil =>
    intro s
    simp [WildMatch, WildMatch.step]
  | cons seg segs ih =>
    intro s
    cases segs with
    | nil =>
      constructor
      · rintro ⟨xs, hlen, hs⟩
        have hxs : xs = [] := List.length_eq_zero.mp (by simpa using hlen)
        subst hxs
        simpa [weave, WildMatch.step] using hs
      · intro h
        exact ⟨[], rfl, by simpa [weave, WildMatch.step] using h⟩
    | cons next rest =>
      constructor
      · rintro ⟨xs, hlen, hs⟩
        cases xs with
        | nil => simp at hlen
        | cons x xs =>
          rw [weave_cons_cons] at hs
          exact ⟨x, weave (next :: rest) xs, hs,
            (ih _).mp ⟨xs, by simpa using hlen, rfl⟩⟩
      · rintro ⟨x, t, hs, ht⟩
        obtain ⟨xs, hlen, hw⟩ := (ih t).mpr ht
        exact ⟨x :: xs, by simpa using hlen, by rw [weave_cons_cons, ← hw, hs]⟩

/-- A string that matches starts with the first segment. -/
theorem WildMatch.step_head (seg : GoString) (segs : List GoString) (s : GoString)
    (h : WildMatch.step (seg :: segs) s) : seg <+: s := by
  cases segs with
  | nil =>
    have hs : s = seg := h
    rw [hs]
  | cons next rest =>
    obtain ⟨x, t, hs, _⟩ := h
    exact ⟨x ++ t, by rw [hs, List.append_assoc]⟩

theorem WildMatch.step_cons_append (q m : GoString) (rest : List GoString) (last s : GoString) :
    WildMatch.step (q :: ((m :: rest) ++ [last])) s ↔
      ∃ x t, s = q ++ x ++ t ∧ WildMatch.step (m :: (rest ++ [last])) t := by
  rw [List.cons_append, WildMatch.step]

theorem WildMatch.step_pair (q last s : GoString) :
    WildMatch.step (q :: ([] ++ [last])) s ↔ ∃ x, s = q ++ x ++ last := by
  rw [List.nil_append, WildMatch.step]
  constructor
  · rintro ⟨x, t, hs, ht⟩
    have ht' : t = last := ht
    exact ⟨x, by rw [hs, ht']⟩
  · rintro ⟨x, hs⟩
    exact ⟨x, last, hs, rfl⟩

/-- What the loop found, in terms of the standard semantics: if the middle iterations
run to the end and the last segment is a suffix of what remains, the subject matches. -/
theorem Glob.loop_mid_step_sound (last : GoString) (mids : List GoString) :
    ∀ (i : Nat) (z z' q : GoString), Glob.loop false (i + 1) mids z = .finished z' →
      last <:+ z' → WildMatch.step (q :: (mids ++ [last])) (q ++ z) := by
  induction mids with
  | nil =>
    intro i z z' q h hsuf
    rw [Glob.loop] at h
    cases h
    obtain ⟨x, hx⟩ := hsuf
    rw [WildMatch.step_pair]
    exact ⟨x, by rw [← hx, List.append_assoc]⟩
  | cons m rest ih =>
    intro i z z' q h hsuf
    by_cases hneg : strings.Index z m < 0
    · rw [Glob.loop_mid_not_found false i m rest z hneg] at h
      cases h
    · obtain ⟨u, v, hz, hlen, _⟩ := strings.Index_found z m (by omega)
      rw [Glob.loop_mid_found false i m rest z u v hz hlen] at h
      rw [WildMatch.step_cons_append]
      exact ⟨u, m ++ v, by rw [hz]; simp, ih (i + 1) v z' m h hsuf⟩

/-- The leftmost scan loses no match of the standard semantics: if the subject matches
from some later position on, the middle iterations run to the end and the last segment is
a suffix of what remains. -/
theorem Glob.loop_mid_step_complete (last : GoString) (mids : List GoString) :
    ∀ (i : Nat) (z y q : GoString), WildMatch.step (q :: (mids ++ [last])) (q ++ y) →
      y <:+ z → ∃ z', Glob.loop false (i + 1) mids z = .finished z' ∧ last <:+ z' := by
  induction mids with
  | nil =>
    intro i z y q h hyz
    rw [WildMatch.step_pair] at h
    obtain ⟨x, hx⟩ := h
    have hy : y = x ++ last := by
      rw [List.append_assoc] at hx
      exact List.append_cancel_left hx
    refine ⟨z, by rw [Glob.loop], ?_⟩
    exact List.IsSuffix.trans ⟨x, hy.symm⟩ hyz
  | cons m rest ih =>
    intro i z y q h hyz
    rw [WildMatch.step_cons_append] at h
    obtain ⟨x, t, hs, ht⟩ := h
    obtain ⟨y', hy'⟩ := WildMatch.step_head m _ t ht
    have hy : y = x ++ m ++ y' := by
      rw [List.append_assoc q x t] at hs
      rw [List.append_cancel_left hs, ← hy', List.append_assoc]
    obtain ⟨w, hw⟩ := hyz
    have hz : z = (w ++ x) ++ m ++ y' := by
      rw [← hw, hy]
      simp
    obtain ⟨u0, v0, hz0, hlen0, hsuf⟩ := strings.Index_found_suffix z (w ++ x) m y' hz
    rw [Glob.loop_mid_found false i m rest z u0 v0 hz0 hlen0]
    exact ih (i + 1) v0 y' m (by rw [hy']; exact ht) hsuf

/-- `Glob` decides the standard wildcard semantics of its pattern. -/
theorem Glob_iff_step (p s : GoString) :
    Glob p s = some true ↔ WildMatch.step (strings.Split p GLOB) s := by
  by_cases hmem : GLOB ∈ p
  · obtain ⟨first, mids, last, hsplit⟩ :=
      exists_first_mids_last _ (strings.Split_length_of_mem p GLOB hmem)
    rw [Glob_eq_of_parts p s first mids last hsplit, hsplit]
    constructor
    · intro h
      cases hp : first.isPrefixOf s
      · rw [hp] at h
        simp at h
      · rw [hp, if_pos rfl] at h
        obtain ⟨v, hv⟩ := List.isPrefixOf_iff_prefix.mp hp
        have hdrop : s.drop first.length = v := by rw [← hv]; simp
        rw [hdrop] at h
        cases hl : Glob.loop false 1 mids v with
        | returned b =>
          rw [hl, Glob.loop_returned false mids 1 v b hl] at h
          cases h
        | panicked => rw [hl] at h; cases h
        | finished s' =>
          rw [hl] at h
          have hsuf : last.isSuffixOf s' = true := by simpa using h
          rw [← hv]
          exact Glob.loop_mid_step_sound last mids 0 v s' first hl
            (List.isSuffixOf_iff_suffix.mp hsuf)
    · intro h
      obtain ⟨v, hv⟩ := WildMatch.step_head first _ s h
      have hp : first.isPrefixOf s = true := List.isPrefixOf_iff_prefix.mpr ⟨v, hv⟩
      have hdrop : s.drop first.length = v := by rw [← hv]; simp
      rw [← hv] at h
      obtain ⟨z', hl, hsuf⟩ :=
        Glob.loop_mid_step_complete last mids 0 v v first h (List.suffix_refl v)
      rw [hp, if_pos rfl, hdrop, hl]
      simp [List.isSuffixOf_iff_suffix.mpr hsuf]
  · rw [Glob_of_not_mem p s hmem, strings.Split_of_not_mem p GLOB hmem]
    constructor
    · intro h
      have hps : p = s := by simpa using h
      exact hps.symm
    · intro h
      have hps : s = p := h
      simp [hps]

/-- Splitting at any separator: the parts of both sides, one after the other. -/
theorem strings.Split_append_sep_append (a b : GoString) (sep : Byte) :
    strings.Split (a ++ sep :: b) sep = strings.Split a sep ++ strings.Split b sep := by
  induction a with
  | nil => exact strings.Split_cons_sep b sep
  | cons c cs ih =>
    by_cases hc : c = sep
    · subst hc
      rw [List.cons_append, strings.Split_cons_sep, strings.Split_cons_sep, ih]
      rfl
    · obtain ⟨q, qs, hq⟩ := List.exists_cons_of_ne_nil (strings.Split_ne_nil cs sep)
      rw [List.cons_append, strings.Split_cons_ne c cs sep hc q qs hq,
        strings.Split_cons_ne c (cs ++ sep :: b) sep hc q (qs ++ strings.Split b sep)
          (by rw [ih, hq]; rfl)]
      rfl

/-- An empty segment between two segments does not change what matches. -/
theorem WildMatch.step_insert_empty (l2 : List GoString) (h2 : l2 ≠ []) (l1 : List GoString) :
    l1 ≠ [] → ∀ s : GoString,
      (WildMatch.step (l1 ++ [] :: l2) s ↔ WildMatch.step (l1 ++ l2) s) := by
  obtain ⟨n, r, rfl⟩ := List.exists_cons_of_ne_nil h2
  induction l1 with
  | nil => intro h; exact absurd rfl h
  | cons q l ih =>
    intro _ s
    cases l with
    | nil =>
      simp only [List.cons_append, List.nil_append, WildMatch.step]
      constructor
      · rintro ⟨x, t, hs, x', t', ht, hstep⟩
        exact ⟨x ++ x', t', by rw [hs, ht]; simp, hstep⟩
      · rintro ⟨x, t', hs, hstep⟩
        exact ⟨x, t', hs, [], t', by simp, hstep⟩
    | cons q2 l' =>
      have ih' := ih (List.cons_ne_nil q2 l')
      simp only [List.cons_append, WildMatch.step] at ih' ⊢
      constructor
      · rintro ⟨x, t, hs, hstep⟩
        exact ⟨x, t, hs, (ih' t).mp hstep⟩
      · rintro ⟨x, t, hs, hstep⟩
        exact ⟨x, t, hs, (ih' t).mpr hstep⟩

/-- Within the loop of `Glob`, from the second iteration on, every trim is in range. -/
theorem Glob.trimsInRange_mid (lg : Bool) (mids : List GoString) :
    ∀ (i : Nat) (z : GoString), Glob.trimsInRange lg (i + 1) mids z = true := by
  induction mids with
  | nil => intro i z; rfl
  | cons p rest ih =>
    intro i z
    rw [Glob.trimsInRange]
    by_cases hneg : strings.Index z p < 0
    · simp [hneg]
    · obtain ⟨u, v, hz, hlen, _⟩ := strings.Index_found z p (by omega)
      have hle : strings.Index z p + (p.length : Int) ≤ (z.length : Int) := by
        rw [← hlen, hz]
        simp only [List.length_append, Nat.cast_add]
        omega
      have hnn : 0 ≤ strings.Index z p := by omega
      simp [hneg, hnn, hle, ih]

/-- Every trim of the loop of `Glob` is in range when a leading glob comes with an empty
first part, as it does for the parts of a pattern. -/
theorem Glob.trimsInRange_zero (lg : Bool) (ps : List GoString) (s : GoString)
    (hlead : lg = true → ∀ first rest, ps = first :: rest → first = []) :
    Glob.trimsInRange lg 0 ps s = true := by
  cases ps with
  | nil => rfl
  | cons first mids =>
    rw [Glob.trimsInRange]
    have h00 : (0 : Nat) = 0 := rfl
    rw [if_pos h00]
    by_cases hstop : (!lg && decide (strings.Index s first ≠ 0)) = true
    · rw [if_pos hstop]
    · have hidx : strings.Index s first = 0 := by
        cases lg with
        | true =>
          rw [hlead rfl first mids rfl]
          exact strings.Index_empty s
        | false =>
          by_contra hne
          exact hstop (by simp [hne])
      have hpre : first <+: s := (strings.Index_eq_zero_iff s first).mp hidx
      have hle : (first.length : Int) ≤ (s.length : Int) := by
        exact_mod_cast hpre.length_le
      rw [if_neg hstop]
      simp [hidx, hle, Glob.trimsInRange_mid]

/-- A leading glob gives an empty first part. -/
theorem strings.Split_head_of_HasPrefix (p : GoString) (sep : Byte)
    (h : strings.HasPrefix p [sep] = true) (first : GoString) (rest : List GoString)
    (hs : strings.Split p sep = first :: rest) : first = [] := by
  obtain ⟨t, rfl⟩ := (strings.HasPrefix_singleton p sep).mp h
  rw [strings.Split_cons_sep] at hs
  exact (List.cons.inj hs).1.symm

/-- A string that matches ends with the last segment. -/
theorem WildMatch.step_last (last : GoString) (l : List GoString) :
    ∀ s : GoString, WildMatch.step (l ++ [last]) s → last <:+ s := by
  induction l with
  | nil =>
    intro s h
    have hs : s = last := h
    rw [hs]
  | cons q l ih =>
    intro s h
    cases l with
    | nil =>
      obtain ⟨x, hs⟩ := (WildMatch.step_pair q last s).mp h
      exact ⟨q ++ x, hs.symm⟩
    | cons q2 l' =>
      obtain ⟨x, t, hs, ht⟩ := (WildMatch.step_cons_append q q2 l' last s).mp h
      exact (ih t ht).trans ⟨q ++ x, hs.symm⟩

/-- The first part of the loop's range is the first part of the pattern. -/
theorem take_eq_cons_head {α : Type} (l : List α) (k : Nat) (first : α) (rest : List α)
    (h : l.take k = first :: rest) : ∃ tail, l = first :: tail := by
  cases l with
  | nil => simp at h
  | cons a tail =>
    cases k with
    | zero => simp at h
    | succ k =>
      rw [List.take_succ_cons] at h
      exact ⟨tail, by rw [(List.cons.inj h).1]⟩

/-- The loop of `Glob` does not panic when a leading glob comes with an empty first
part. -/
theorem Glob.loop_ne_panicked (lg : Bool) (ps : List GoString) (s : GoString)
    (hlead : lg = true → ∀ first rest, ps = first :: rest → first = []) :
    Glob.loop lg 0 ps s ≠ .panicked := by
  cases ps with
  | nil =>
    intro h
    rw [Glob.loop] at h
    cases h
  | cons first mids =>
    rw [Glob.loop_zero lg first mids s (fun h => hlead h first mids rfl)]
    cases first.isPrefixOf s
    · intro h
      cases h
    · rw [if_pos rfl]
      exact Glob.loop_mid_ne_panicked mids 0 _

/-! ## Theorems on `Glob` and the standard wildcard semantics -/

/-- C16 (refuted as stated): there are no pattern `p` and subject `s` such that `s`
matches `p` under the standard wildcard semantics and `Glob(p, s)` returns false. -/
theorem Glob_rejects_no_match :
    ¬ ∃ p s : GoString, WildMatch (strings.Split p GLOB) s ∧ Glob p s = some false := by
  rintro ⟨p, s, hmatch, hfalse⟩
  have htrue : Glob p s = some true :=
    (Glob_iff_step p s).mpr ((WildMatch_iff_step _ s).mp hmatch)
  rw [htrue] at hfalse
  cases hfalse

/-- C16 (amended): the leftmost, single-pass strategy rejects no input that the standard
wildcard semantics accepts: if `s = s_0 ++ x_1 ++ s_1 ++ ... ++ x_n ++ s_n` for the split
`s_0, ..., s_n` of `p` on the glob and some strings `x_1, ..., x_n`, then `Glob(p, s)`
returns true. -/
theorem Glob_complete (p s : GoString) (h : WildMatch (strings.Split p GLOB) s) :
    Glob p s = some true :=
  (Glob_iff_step p s).mpr ((WildMatch_iff_step _ s).mp h)

/-- An instance of C16 (amended): pattern `"*a*ab"` and subject `"aab"`, where the
leftmost `"a"` is the only occurrence that leaves room for `"ab"`. -/
theorem Glob_complete_witness :
    WildMatch (strings.Split (ascii "*a*ab") GLOB) (ascii "aab") ∧
    Glob (ascii "*a*ab") (ascii "aab") = some true :=
  ⟨⟨[[], []], by decide, by decide⟩,
    Glob_complete (ascii "*a*ab") (ascii "aab") ⟨[[], []], by decide, by decide⟩⟩

/-- C17: consecutive globs collapse: `Glob(a ++ "**" ++ b, s)` equals
`Glob(a ++ "*" ++ b, s)` for all strings `a`, `b` and every subject `s`. -/
theorem Glob_double_glob (a b s : GoString) :
    Glob (a ++ ascii "**" ++ b) s = Glob (a ++ ascii "*" ++ b) s := by
  have h2 : ascii "**" = [GLOB, GLOB] := by decide
  have h1 : ascii "*" = [GLOB] := by decide
  have hs2 : strings.Split (a ++ ascii "**" ++ b) GLOB
      = strings.Split a GLOB ++ [] :: strings.Split b GLOB := by
    rw [h2, List.append_assoc]
    show strings.Split (a ++ GLOB :: (GLOB :: b)) GLOB = _
    rw [strings.Split_append_sep_append, strings.Split_cons_sep]
  have hs1 : strings.Split (a ++ ascii "*" ++ b) GLOB
      = strings.Split a GLOB ++ strings.Split b GLOB := by
    rw [h1, List.append_assoc]
    exact strings.Split_append_sep_append a b GLOB
  have hiff : Glob (a ++ ascii "**" ++ b) s = some true ↔
      Glob (a ++ ascii "*" ++ b) s = some true := by
    rw [Glob_iff_step, Glob_iff_step, hs2, hs1]
    exact WildMatch.step_insert_empty _ (strings.Split_ne_nil b GLOB) _
      (strings.Split_ne_nil a GLOB) s
  obtain ⟨x, hx⟩ := Glob_total (a ++ ascii "**" ++ b) s
  obtain ⟨y, hy⟩ := Glob_total (a ++ ascii "*" ++ b) s
  rw [hx, hy] at hiff ⊢
  cases x <;> cases y <;> simp at hiff ⊢

/-- C18: `Glob` is sound against the standard wildcard semantics: for a pattern `p` with
at least one glob, split on the glob into `s_0, ..., s_n` (`n ≥ 1`), if `Glob(p, s)` is
true then there are strings `x_1, ..., x_n` with
`s = s_0 ++ x_1 ++ s_1 ++ ... ++ x_n ++ s_n`; the segments occur in `s` in order without
overlap, the first as a prefix and the last as a suffix. -/
theorem Glob_sound (p s : GoString) (hglob : GLOB ∈ p) (h : Glob p s = some true) :
    2 ≤ (strings.Split p GLOB).length ∧
    (∃ xs : List GoString, xs.length + 1 = (strings.Split p GLOB).length ∧
      s = weave (strings.Split p GLOB) xs) ∧
    OccursInOrder (strings.Split p GLOB) s ∧
    (∀ first, (strings.Split p GLOB).head? = some first → first <+: s) ∧
    (∀ last, (strings.Split p GLOB).getLast? = some last → last <:+ s) := by
  have hstep : WildMatch.step (strings.Split p GLOB) s := (Glob_iff_step p s).mp h
  have hlen := strings.Split_length_of_mem p GLOB hglob
  refine ⟨hlen, (WildMatch_iff_step _ s).mpr hstep, Glob_occurs p s h, ?_, ?_⟩
  · intro first hfirst
    obtain ⟨q, qs, hq⟩ := List.exists_cons_of_ne_nil (strings.Split_ne_nil p GLOB)
    rw [hq] at hfirst hstep
    have hqf : q = first := by simpa using hfirst
    rw [← hqf]
    exact WildMatch.step_head q qs s hstep
  · intro last hlast
    obtain ⟨first, mids, l, hsplit⟩ := exists_first_mids_last _ hlen
    rw [hsplit] at hlast hstep
    have hl : l = last := by
      rw [← List.cons_append, List.getLast?_append] at hlast
      simpa using hlast
    rw [← hl]
    rw [← List.cons_append] at hstep
    exact WildMatch.step_last l (first :: mids) s hstep

/-- An instance of C18: pattern `"a*b*c"` and subject `"axbyc"`. -/
theorem Glob_sound_witness :
    GLOB ∈ ascii "a*b*c" ∧ Glob (ascii "a*b*c") (ascii "axbyc") = some true ∧
    ∃ xs : List GoString, xs.length + 1 = (strings.Split (ascii "a*b*c") GLOB).length ∧
      ascii "axbyc" = weave (strings.Split (ascii "a*b*c") GLOB) xs :=
  ⟨by decide, by decide,
    (Glob_sound (ascii "a*b*c") (ascii "axbyc") (by decide) (by decide)).2.1⟩

/-- C19: `Glob` is total and never slices out of range: for every pattern and subject,
each time the loop reaches the trim `subj = subj[idx+len(parts[i]):]`, `idx ≥ 0` and
`idx + len(parts[i]) ≤ len(subj)`; the loop does not panic and `Glob` returns a
boolean. -/
theorem Glob_never_panics (p s : GoString) :
    Glob.trimsInRange (strings.HasPrefix p [GLOB]) 0
      ((strings.Split p GLOB).take ((strings.Split p GLOB).length - 1)) s = true ∧
    Glob.loop (strings.HasPrefix p [GLOB]) 0
      ((strings.Split p GLOB).take ((strings.Split p GLOB).length - 1)) s ≠ .panicked ∧
    ∃ b, Glob p s = some b := by
  have hlead : strings.HasPrefix p [GLOB] = true → ∀ first rest,
      (strings.Split p GLOB).take ((strings.Split p GLOB).length - 1) = first :: rest →
      first = [] := by
    intro hpre first rest htake
    obtain ⟨tail, htail⟩ := take_eq_cons_head _ _ first rest htake
    exact strings.Split_head_of_HasPrefix p GLOB hpre first tail htail
  exact ⟨Glob.trimsInRange_zero _ _ s hlead, Glob.loop_ne_panicked _ _ s hlead, Glob_total p s⟩

/-- The safety condition tracks the run of the loop: if every trim reached is in range,
the loop does not panic, whatever its arguments. -/
theorem Glob.loop_ne_panicked_of_trimsInRange (lg : Bool) (ps : List GoString) :
    ∀ (i : Nat) (z : GoString), Glob.trimsInRange lg i ps z = true →
      Glob.loop lg i ps z ≠ .panicked := by
  induction ps with
  | nil =>
    intro i z _ h
    rw [Glob.loop] at h
    cases h
  | cons part rest ih =>
    intro i z hsafe
    rw [Glob.trimsInRange] at hsafe
    rw [Glob.loop]
    by_cases hstop : (if i = 0 then (!lg && decide (strings.Index z part ≠ 0))
        else decide (strings.Index z part < 0)) = true
    · rw [if_pos hstop]
      intro h
      cases h
    · rw [if_neg hstop] at hsafe ⊢
      rw [Bool.and_eq_true, decide_eq_true_eq] at hsafe
      obtain ⟨⟨h0, hle⟩, hrest⟩ := hsafe
      have hslice : sliceFrom z (strings.Index z part + (part.length : Int))
          = some (z.drop (strings.Index z part + (part.length : Int)).toNat) := by
        unfold sliceFrom
        rw [if_pos ⟨by omega, hle⟩]
      rw [hslice]
      exact ih (i + 1) _ hrest

/-- The condition checked by `Glob.trimsInRange` can fail for arguments that are not
the parts of a pattern: a leading glob with a non-empty first part that is absent. -/
theorem Glob.trimsInRange_can_fail :
    Glob.trimsInRange true 0 [ascii "a"] (ascii "b") = false := by decide

/-! ## Materialization of a policy template -/

/-- The loop of `Role` assigns the slots from index `i` on, in template order, and
leaves the slots before `i` as they are. -/
theorem PolicyTemplate.roleLoop_eq (p : PolicyTemplate) (replacer : Option (GoString → GoString))
    (ts : List PermissionTemplate) :
    ∀ (i : Nat) (perms : Permissions), perms.length = i + ts.length →
      p.roleLoop replacer i ts perms = perms.take i ++ ts.map (p.construct replacer) := by
  induction ts with
  | nil =>
    intro i perms hlen
    rw [PolicyTemplate.roleLoop]
    simp only [List.length_nil, Nat.add_zero] at hlen
    simp [List.take_of_length_le (Nat.le_of_eq hlen)]
  | cons t rest ih =>
    intro i perms hlen
    simp only [List.length_cons] at hlen
    have hi : i < perms.length := by omega
    rw [PolicyTemplate.roleLoop, ih (i + 1) _ (by rw [List.length_set]; omega)]
    have htake : (perms.set i (p.construct replacer t)).take (i + 1)
        = perms.take i ++ [p.construct replacer t] := by
      rw [List.set_eq_take_cons_drop _ hi]
      have hsplit : List.take i perms ++ p.construct replacer t :: List.drop (i + 1) perms
          = (List.take i perms ++ [p.construct replacer t]) ++ List.drop (i + 1) perms := by
        simp
      rw [hsplit]
      exact List.take_left' (by simp; omega)
    rw [htake]
    simp

/-- The permissions of the materialized role: one per template, in template order. -/
theorem PolicyTemplate.Role_Permissions (p : PolicyTemplate)
    (replacer : Option (GoString → GoString)) :
    (p.Role replacer).Permissions = p.PermissionTemplates.map (p.construct replacer) := by
  unfold PolicyTemplate.Role
  simp only
  rw [PolicyTemplate.roleLoop_eq p replacer p.PermissionTemplates 0 _ (by simp)]
  simp

/-- The value assigned to a slot: the registered constructor, or the glob constructor
when the name is not registered, applied to the substituted patterns. -/
theorem PolicyTemplate.construct_eq (p : PolicyTemplate)
    (replacer : Option (GoString → GoString)) (t : PermissionTemplate) :
    p.construct replacer t
      = ((p.constructors t.Constructor).getD NewGlobPermission)
          ((replacer.getD id) t.Action) ((replacer.getD id) t.Target) := by
  unfold PolicyTemplate.construct
  cases replacer <;> cases p.constructors t.Constructor <;> rfl

/-- The slot of a template in the materialized role. -/
theorem PolicyTemplate.Role_Permissions_get (p : PolicyTemplate)
    (replacer : Option (GoString → GoString)) (i : Nat) (t : PermissionTemplate)
    (ht : p.PermissionTemplates[i]? = some t) :
    (p.Role replacer).Permissions[i]? = some (p.construct replacer t) := by
  rw [PolicyTemplate.Role_Permissions, List.getElem?_map, ht]
  rfl

/-- The pattern `"*"` matches every subject. -/
theorem Glob_glob_star (s : GoString) : Glob (ascii "*") s = some true := by
  have h : ascii "*" = [GLOB] := by decide
  rw [h]
  simp [Glob]

/-- A glob permission returns the conjunction of the two glob matches, without error. -/
theorem NewGlobPermission_apply (A T a t : GoString) :
    ∃ ba bt, Glob A a = some ba ∧ Glob T t = some bt ∧
      NewGlobPermission A T a t = (ba && bt, none) := by
  obtain ⟨ba, ha⟩ := Glob_total A a
  obtain ⟨bt, ht⟩ := Glob_total T t
  refine ⟨ba, bt, ha, ht, ?_⟩
  unfold NewGlobPermission NewPermission GlobMatch
  rw [ha, ht]
  cases ba <;> rfl

/-- A string permission compares action and target with its two strings. -/
theorem NewStringPermission_apply (A T a t : GoString) :
    NewStringPermission A T a t = (decide (a = A) && decide (t = T), none) := by
  unfold NewStringPermission NewPermission StringMatch
  by_cases h : a = A <;> simp [h]

/-- A single permission that returns no error decides `Can`. -/
theorem Permissions.Can_singleton (perm : Permission) (a t : GoString) (b : Bool)
    (h : perm a t = (b, none)) : Permissions.Can [perm] a t = (b, none) := by
  cases b
  · rw [Permissions.Can_cons_false _ _ _ _ h, Permissions.Can_nil]
  · rw [Permissions.Can_cons_true _ _ _ _ h]

/-! ## Theorems on the materialization of a policy template -/

/-- C12: a permission template whose constructor name is not a key of the registry is
materialized by `p.Role(nil)`, at its position, as `NewGlobPermission(A, T)`, which
returns `(Glob(A, a) && Glob(T, t), nil)` for all `(a, t)`. In particular the template
`{"constructor": "bogus", "action": "*", "target": "*"}` yields a permission that returns
`(true, nil)` for every `(a, t)`. -/
theorem PolicyTemplate.Role_unknown_constructor :
    (∀ (p : PolicyTemplate) (i : Nat) (t : PermissionTemplate),
      p.PermissionTemplates[i]? = some t → p.constructors t.Constructor = none →
      (p.Role none).Permissions[i]? = some (NewGlobPermission t.Action t.Target) ∧
      ∀ a tg, ∃ ba bt, Glob t.Action a = some ba ∧ Glob t.Target tg = some bt ∧
        NewGlobPermission t.Action t.Target a tg = (ba && bt, none)) ∧
    (∀ p : PolicyTemplate, p.constructors (ascii "bogus") = none →
      p.PermissionTemplates = [⟨ascii "bogus", ascii "*", ascii "*"⟩] →
      ∃ perm, (p.Role none).Permissions = [perm] ∧ ∀ a tg, perm a tg = (true, none)) := by
  constructor
  · intro p i t ht hnone
    refine ⟨?_, fun a tg => NewGlobPermission_apply t.Action t.Target a tg⟩
    rw [PolicyTemplate.Role_Permissions_get p none i t ht, PolicyTemplate.construct_eq, hnone]
    rfl
  · intro p hnone htpl
    refine ⟨NewGlobPermission (ascii "*") (ascii "*"), ?_, ?_⟩
    · rw [PolicyTemplate.Role_Permissions, htpl, List.map_cons, List.map_nil,
        PolicyTemplate.construct_eq]
      simp only [hnone]
      rfl
    · intro a tg
      obtain ⟨ba, bt, ha, ht, hperm⟩ := NewGlobPermission_apply (ascii "*") (ascii "*") a tg
      rw [Glob_glob_star a] at ha
      rw [Glob_glob_star tg] at ht
      cases ha
      cases ht
      exact hperm

/-- An instance of C12: the template with the single rule
`{"constructor": "bogus", "action": "*", "target": "*"}` and the default registry. -/
theorem PolicyTemplate.Role_unknown_constructor_witness :
    bogusPolicy.constructors (ascii "bogus") = none ∧
    bogusPolicy.PermissionTemplates = [⟨ascii "bogus", ascii "*", ascii "*"⟩] ∧
    ∃ perm, (bogusPolicy.Role none).Permissions = [perm] ∧
      perm (ascii "delete") (ascii "/etc/passwd") = (true, none) := by
  obtain ⟨perm, hperm, hall⟩ :=
    PolicyTemplate.Role_unknown_constructor.2 bogusPolicy rfl rfl
  exact ⟨rfl, rfl, perm, hperm, hall _ _⟩

/-- C13: `p.Role` produces a role whose `RoleID` is `p.RoleID` and whose permission
sequence has exactly one entry per permission template, where entry `i` is the registry
entry for the template's constructor name (the glob constructor when absent) applied to
the substituted action and target patterns; without a replacer the substitution is the
identity. Template order is preserved. -/
theorem PolicyTemplate.Role_spec (p : PolicyTemplate) (replacer : Option (GoString → GoString)) :
    (p.Role replacer).RoleID = p.RoleID ∧
    (p.Role replacer).Permissions.length = p.PermissionTemplates.length ∧
    ∀ (i : Nat) (t : PermissionTemplate), p.PermissionTemplates[i]? = some t →
      (p.Role replacer).Permissions[i]?
        = some (((p.constructors t.Constructor).getD NewGlobPermission)
            ((replacer.getD id) t.Action) ((replacer.getD id) t.Target)) := by
  refine ⟨rfl, ?_, ?_⟩
  · rw [PolicyTemplate.Role_Permissions, List.length_map]
  · intro i t ht
    rw [PolicyTemplate.Role_Permissions_get p replacer i t ht, PolicyTemplate.construct_eq]

/-- An instance of C13: the second rule of a template with two rules, materialized with
a substitution of `$user`. -/
theorem PolicyTemplate.Role_spec_witness :
    samplePolicy.PermissionTemplates[1]? = some ⟨ascii "string", ascii "write", ascii "$user"⟩ ∧
    (samplePolicy.Role (some substUser)).Permissions[1]?
      = some (NewStringPermission (ascii "write") (ascii "alice")) :=
  ⟨rfl, (PolicyTemplate.Role_spec samplePolicy (some substUser)).2.2 1
    ⟨ascii "string", ascii "write", ascii "$user"⟩ rfl⟩

/-- C14: substitution round-trip: for a template with the default registry and the
single rule `{constructor: "string", action: A, target: T}`, the role materialized with a
substitution `f` answers `Can(a, t)` with `((a == f(A)) && (t == f(T)), nil)` (with `f` the
identity when no replacer is supplied); so when `f(T) != T`, `Can(f(A), f(T))` is
`(true, nil)` and `Can(f(A), T)`, with the original placeholder text, is `(false, nil)`. -/
theorem PolicyTemplate.Role_string_substitution
    (matchString : GoString → GoString → Result) (p : PolicyTemplate) (A T : GoString)
    (hreg : p.constructors = DefaultPermissionConstructors matchString)
    (htpl : p.PermissionTemplates = [⟨ascii "string", A, T⟩]) (f : GoString → GoString) :
    (∀ a t, (p.Role (some f)).Permissions.Can a t
      = (decide (a = f A) && decide (t = f T), none)) ∧
    (∀ a t, (p.Role none).Permissions.Can a t = (decide (a = A) && decide (t = T), none)) ∧
    (f T ≠ T →
      (p.Role (some f)).Permissions.Can (f A) (f T) = (true, none) ∧
      (p.Role (some f)).Permissions.Can (f A) T = (false, none)) := by
  have hperms : ∀ replacer : Option (GoString → GoString),
      (p.Role replacer).Permissions
        = [NewStringPermission ((replacer.getD id) A) ((replacer.getD id) T)] := by
    intro replacer
    rw [PolicyTemplate.Role_Permissions, htpl, List.map_cons, List.map_nil,
      PolicyTemplate.construct_eq, hreg]
    rfl
  have hcan : ∀ (replacer : Option (GoString → GoString)) (a t : GoString),
      (p.Role replacer).Permissions.Can a t
        = (decide (a = (replacer.getD id) A) && decide (t = (replacer.getD id) T), none) := by
    intro replacer a t
    rw [hperms replacer]
    exact Permissions.Can_singleton _ a t _ (NewStringPermission_apply _ _ a t)
  refine ⟨fun a t => hcan (some f) a t, fun a t => hcan none a t, ?_⟩
  intro hne
  have hne' : ¬ T = f T := fun h => hne h.symm
  constructor
  · rw [hcan (some f)]
    simp
  · rw [hcan (some f)]
    simp [hne']

/-- An instance of C14: the rule `{"string", "edit", "$user"}` materialized with the
substitution of `$user` by `alice`. -/
theorem PolicyTemplate.Role_string_substitution_witness :
    userPolicy.constructors = DefaultPermissionConstructors noRegexp ∧
    userPolicy.PermissionTemplates = [⟨ascii "string", ascii "edit", ascii "$user"⟩] ∧
    substUser (ascii "$user") ≠ ascii "$user" ∧
    (userPolicy.Role (some substUser)).Permissions.Can (substUser (ascii "edit"))
      (substUser (ascii "$user")) = (true, none) ∧
    (userPolicy.Role (some substUser)).Permissions.Can (substUser (ascii "edit"))
      (ascii "$user") = (false, none) :=
  ⟨rfl, rfl, by decide,
    ((PolicyTemplate.Role_string_substitution noRegexp userPolicy (ascii "edit") (ascii "$user")
      rfl rfl substUser).2.2 (by decide)).1,
    ((PolicyTemplate.Role_string_substitution noRegexp userPolicy (ascii "edit") (ascii "$user")
      rfl rfl substUser).2.2 (by decide)).2⟩

/-- C15: end to end: for a template with the default registry and the single rule
`{constructor: "glob", action: A, target: T}`, materialized with no replacer, the role
answers `Can(a, t)` with `(Glob(A, a) && Glob(T, t), nil)`. In particular, with role
`"admin"`, `A = "read*"` and `T = "/docs/*"`, `Can("read-file", "/docs/report.pdf")` is
`(true, nil)` and `Can("write", "/docs/report.pdf")` is `(false, nil)`. -/
theorem PolicyTemplate.Role_glob_end_to_end :
    (∀ (matchString : GoString → GoString → Result) (p : PolicyTemplate) (A T : GoString),
      p.constructors = DefaultPermissionConstructors matchString →
      p.PermissionTemplates = [⟨ascii "glob", A, T⟩] →
      ∀ a t, ∃ ba bt, Glob A a = some ba ∧ Glob T t = some bt ∧
        (p.Role none).Permissions.Can a t = (ba && bt, none)) ∧
    (∀ matchString : GoString → GoString → Result,
      (((NewPolicyTemplate matchString (ascii "admin")).AddPermission
        (ascii "glob") (ascii "read*") (ascii "/docs/*")).Role none).RoleID = ascii "admin" ∧
      (((NewPolicyTemplate matchString (ascii "admin")).AddPermission
        (ascii "glob") (ascii "read*") (ascii "/docs/*")).Role none).Permissions.Can
          (ascii "read-file") (ascii "/docs/report.pdf") = (true, none) ∧
      (((NewPolicyTemplate matchString (ascii "admin")).AddPermission
        (ascii "glob") (ascii "read*") (ascii "/docs/*")).Role none).Permissions.Can
          (ascii "write") (ascii "/docs/report.pdf") = (false, none)) := by
  have hgen : ∀ (matchString : GoString → GoString → Result) (p : PolicyTemplate)
      (A T : GoString), p.constructors = DefaultPermissionConstructors matchString →
      p.PermissionTemplates = [⟨ascii "glob", A, T⟩] →
      ∀ a t, ∃ ba bt, Glob A a = some ba ∧ Glob T t = some bt ∧
        (p.Role none).Permissions.Can a t = (ba && bt, none) := by
    intro matchString p A T hreg htpl a t
    obtain ⟨ba, bt, ha, ht, hperm⟩ := NewGlobPermission_apply A T a t
    refine ⟨ba, bt, ha, ht, ?_⟩
    have hperms : (p.Role none).Permissions = [NewGlobPermission A T] := by
      rw [PolicyTemplate.Role_Permissions, htpl, List.map_cons, List.map_nil,
        PolicyTemplate.construct_eq, hreg]
      rfl
    rw [hperms]
    exact Permissions.Can_singleton _ a t _ hperm
  refine ⟨hgen, ?_⟩
  intro matchString
  refine ⟨rfl, ?_, ?_⟩
  · obtain ⟨ba, bt, ha, ht, hcan⟩ := hgen matchString
      ((NewPolicyTemplate matchString (ascii "admin")).AddPermission
        (ascii "glob") (ascii "read*") (ascii "/docs/*"))
      (ascii "read*") (ascii "/docs/*") rfl rfl (ascii "read-file") (ascii "/docs/report.pdf")
    have ha' : Glob (ascii "read*") (ascii "read-file") = some true := by decide
    have ht' : Glob (ascii "/docs/*") (ascii "/docs/report.pdf") = some true := by decide
    rw [ha'] at ha
    rw [ht'] at ht
    cases ha
    cases ht
    exact hcan
  · obtain ⟨ba, bt, ha, ht, hcan⟩ := hgen matchString
      ((NewPolicyTemplate matchString (ascii "admin")).AddPermission
        (ascii "glob") (ascii "read*") (ascii "/docs/*"))
      (ascii "read*") (ascii "/docs/*") rfl rfl (ascii "write") (ascii "/docs/report.pdf")
    have ha' : Glob (ascii "read*") (ascii "write") = some false := by decide
    rw [ha'] at ha
    cases ha
    exact hcan

/-- An instance of C15: the first rule of the end-to-end scenario, with a
regular-expression engine that never matches. -/
theorem PolicyTemplate.Role_glob_end_to_end_witness :
    (((NewPolicyTemplate noRegexp (ascii "admin")).AddPermission
      (ascii "glob") (ascii "read*") (ascii "/docs/*")).Role none).Permissions.Can
        (ascii "read-file") (ascii "/docs/report.pdf") = (true, none) :=
  (PolicyTemplate.Role_glob_end_to_end.2 noRegexp).2.1

/-- C20: removing a constructor never makes materialization fail and resolves to the
built-in glob constructor: after `p.DeleteConstructor(n)`, `Role` still produces one
permission per template, and every template whose constructor name is `n` is materialized
as `NewGlobPermission` of its substituted action and target, whatever the registry of `p`
holds (under the key `"glob"` or any other). On a template with the default registry,
`DeleteConstructor("glob")` leaves the permissions produced by `Role` unchanged. -/
theorem PolicyTemplate.DeleteConstructor_Role :
    (∀ (p : PolicyTemplate) (n : GoString) (replacer : Option (GoString → GoString)),
      ((p.DeleteConstructor n).Role replacer).Permissions.length
        = p.PermissionTemplates.length ∧
      ∀ (i : Nat) (t : PermissionTemplate), p.PermissionTemplates[i]? = some t →
        t.Constructor = n →
        ((p.DeleteConstructor n).Role replacer).Permissions[i]?
          = some (NewGlobPermission ((replacer.getD id) t.Action)
              ((replacer.getD id) t.Target))) ∧
    (∀ (matchString : GoString → GoString → Result) (p : PolicyTemplate)
      (replacer : Option (GoString → GoString)),
      p.constructors = DefaultPermissionConstructors matchString →
      ((p.DeleteConstructor (ascii "glob")).Role replacer).Permissions
        = (p.Role replacer).Permissions) := by
  constructor
  · intro p n replacer
    constructor
    · rw [PolicyTemplate.Role_Permissions, List.length_map]
      rfl
    · intro i t ht hn
      have ht' : (p.DeleteConstructor n).PermissionTemplates[i]? = some t := ht
      rw [PolicyTemplate.Role_Permissions_get _ replacer i t ht', PolicyTemplate.construct_eq]
      have hlook : (p.DeleteConstructor n).constructors t.Constructor = none := by
        simp [PolicyTemplate.DeleteConstructor, hn]
      rw [hlook]
      rfl
  · intro matchString p replacer hreg
    rw [PolicyTemplate.Role_Permissions, PolicyTemplate.Role_Permissions]
    have htpl : (p.DeleteConstructor (ascii "glob")).PermissionTemplates
        = p.PermissionTemplates := rfl
    rw [htpl]
    apply List.map_congr_left
    intro t _
    rw [PolicyTemplate.construct_eq, PolicyTemplate.construct_eq]
    by_cases hname : t.Constructor = ascii "glob"
    · have h1 : (p.DeleteConstructor (ascii "glob")).constructors t.Constructor = none := by
        simp [PolicyTemplate.DeleteConstructor, hname]
      have h2 : p.constructors t.Constructor = some NewGlobPermission := by
        rw [hreg, hname]
        rfl
      rw [h1, h2]
      rfl
    · have h1 : (p.DeleteConstructor (ascii "glob")).constructors t.Constructor
          = p.constructors t.Constructor := by
        simp [PolicyTemplate.DeleteConstructor, hname]
      rw [h1]

/-- An instance of C20: a custom constructor is registered under `"glob"`, then
`"string"` is removed; the second rule, a `"string"` rule, is materialized by the
built-in glob constructor. -/
theorem PolicyTemplate.DeleteConstructor_Role_witness :
    samplePolicy.PermissionTemplates[1]? = some ⟨ascii "string", ascii "write", ascii "$user"⟩ ∧
    (((samplePolicy.SetConstructor (ascii "glob") allowAllConstructor).DeleteConstructor
      (ascii "string")).Role none).Permissions[1]?
      = some (NewGlobPermission (ascii "write") (ascii "$user")) :=
  ⟨rfl, ((PolicyTemplate.DeleteConstructor_Role.1
    (samplePolicy.SetConstructor (ascii "glob") allowAllConstructor) (ascii "string") none).2 1
    ⟨ascii "string", ascii "write", ascii "$user"⟩ rfl rfl)⟩

end GoSimpleRbac
